import Mathlib

/-!
# A shallow embedding of the `lznt1` crate (LZNT1 compression codec)

This file models the two Rust source files `src/compress.rs` and
`src/decompress.rs` of the `lznt1` crate in Lean, and proves the
specification claims about them.

Conventions of the embedding:
* A byte buffer (`&[u8]`, `Vec<u8>`) is a `List Nat`; machine integers are
  `Nat` with explicit `% 2 ^ w` where the Rust code truncates (`as u16`).
* A function mutating `output: &mut Vec<u8>` and returning
  `Result<(), DecompressionError>` becomes a function returning
  `List Nat × Option DecompressionError` (the final buffer and `none` for
  `Ok`).
* Every Rust loop is a fuel-indexed structural recursion.  The fuel is an
  upper bound on the number of iterations taken from the loop's own progress
  argument (each iteration consumes at least one input byte, or increments a
  counter that is explicitly bounded in the source).  Top level entry points
  instantiate the fuel with `length + 1`, which is always sufficient; the
  proofs never rely on fuel exhaustion.
-/

set_option maxRecDepth 10000

namespace Lznt1

/-- The error enum of `src/error.rs` (`DecompressionError`). -/
inductive DecompressionError where
  | unexpectedEof
  | invalidHeader
  | invalidOffset
  | inputTooShort
deriving DecidableEq, Repr

/-! ## Decompressor  (`src/decompress.rs`) -/

/-- The adaptive state of `decompress_compressed_block`: the mutable local
variables `split`, `mask`, `threshold`. -/
structure AdaptiveState where
  split : Nat
  mask : Nat
  threshold : Nat
deriving DecidableEq, Repr

/-- `INITIAL_SPLIT = 12`, `mask = (1 << split) - 1`, `INITIAL_THRESHOLD = 16`
(decompress.rs lines 87–89). -/
def initAdaptive : AdaptiveState := ⟨12, 4095, 16⟩

/-- One iteration body of the `while` loop of `update_adaptive_state`
(decompress.rs lines 200–206): `if split > 0 { split -= 1; mask = (1 << split) - 1 }`
then `threshold <<= 1`. -/
def adaptiveStep (s : AdaptiveState) : AdaptiveState :=
  if 0 < s.split then
    ⟨s.split - 1, (1 <<< (s.split - 1)) - 1, s.threshold * 2⟩
  else
    ⟨s.split, s.mask, s.threshold * 2⟩

/-- The `while current_block_out_len > *threshold` loop of
`update_adaptive_state`, fuel-indexed.  The threshold starts at 16 and doubles
every iteration, so `n` iterations are always more than enough fuel to reach
the exit condition `threshold ≥ n` (proved below as `adaptive_go_fuel_irrel`). -/
def adaptive_go (n : Nat) : Nat → AdaptiveState → AdaptiveState
  | 0, s => s
  | fuel + 1, s => if s.threshold < n then adaptive_go n fuel (adaptiveStep s) else s

/-- `update_adaptive_state(current_block_out_len, threshold, split, mask)`
(decompress.rs lines 194–207), as a function from the current state to the new
state. -/
def update_adaptive_state (n : Nat) (s : AdaptiveState) : AdaptiveState :=
  adaptive_go n n s

/-- The canonical adaptive state after `n` uncompressed bytes of the current
chunk, starting from the initial `(split = 12, mask = 0xFFF, threshold = 16)`. -/
def adSt (n : Nat) : AdaptiveState := update_adaptive_state n initAdaptive

/-- The byte-at-a-time forward copy loop of `apply_match`
(decompress.rs lines 181–185): `for k in 0..length { let val = output[src_pos + k];
output.push(val); }`.  The recursion advances `srcPos` instead of carrying `k`;
the sequence of indices read is identical. -/
def lzCopy (output : List Nat) (srcPos : Nat) : Nat → List Nat
  | 0 => output
  | len + 1 => lzCopy (output ++ [output.getD srcPos 0]) (srcPos + 1) len

/-- `apply_match(output, length, offset)` (decompress.rs lines 166–189):
bounds check against the full output buffer, RLE fast path for `offset == 1`,
general overlapping forward copy otherwise. -/
def apply_match (output : List Nat) (length offset : Nat) :
    List Nat × Option DecompressionError :=
  if output.length < offset then
    (output, some .invalidOffset)
  else if offset = 1 then
    (output ++ List.replicate length (output.getD (output.length - 1) 0), none)
  else
    (lzCopy output (output.length - offset) length, none)

/-- Result of the `for i in 0..TAG_GROUP_SIZE` loop inside
`decompress_compressed_block`: an error, an early `return Ok(())` (carrying
the output built so far), or fall-through to the next tag group. -/
inductive GroupResult where
  | err (out : List Nat) (e : DecompressionError)
  | done (out : List Nat)
  | next (rem : List Nat) (out : List Nat) (st : AdaptiveState)
deriving DecidableEq, Repr

/-- The `for i in 0..TAG_GROUP_SIZE` loop of `decompress_compressed_block`
(decompress.rs lines 115–155).  `k` is the number of remaining items
(`8 - i`), used as the structural recursion counter; `i` is the loop
variable used to index the tag byte.  `rem` is the unread part of the block
body, `out` the whole output buffer, `startLen` the value of `start_out_len`,
`st` the adaptive state. -/
def tag_group_loop (tag : Nat) :
    Nat → Nat → List Nat → List Nat → Nat → AdaptiveState → GroupResult
  | 0, _, rem, out, _, st => .next rem out st
  | k + 1, i, rem, out, startLen, st =>
    if Nat.land (tag >>> i) 1 ≠ 0 then
      -- link: need two bytes for the tuple
      match rem with
      | b0 :: b1 :: rest =>
        let tuple := b0 + 256 * b1
        let length := Nat.land tuple st.mask + 3
        let offset := (tuple >>> st.split) + 1
        match apply_match out length offset with
        | (out', some e) => .err out' e
        | (out', none) =>
          let st' := update_adaptive_state (out'.length - startLen) st
          if rest = [] then .done out'
          else tag_group_loop tag k (i + 1) rest out' startLen st'
      | _ => .err out .unexpectedEof
    else
      -- literal
      match rem with
      | [] => .done out
      | b :: rest =>
        let out' := out ++ [b]
        let st' := update_adaptive_state (out'.length - startLen) st
        if rest = [] then .done out'
        else tag_group_loop tag k (i + 1) rest out' startLen st'

/-- The outer `while in_idx < end` loop of `decompress_compressed_block`
(decompress.rs lines 92–156), fuel-indexed.  Every iteration consumes at least
the tag byte, so `rem.length` iterations suffice; callers pass
`rem.length + 1`. -/
def block_loop :
    Nat → List Nat → List Nat → Nat → AdaptiveState → List Nat × Option DecompressionError
  | 0, _, out, _, _ => (out, none)
  | fuel + 1, rem, out, startLen, st =>
    match rem with
    | [] => (out, none)
    | tag :: rest =>
      if tag = 0 ∧ 8 ≤ rest.length then
        -- all-literals fast path (lines 100–112)
        let out' := out ++ rest.take 8
        let st' := update_adaptive_state (out'.length - startLen) st
        block_loop fuel (rest.drop 8) out' startLen st'
      else
        match tag_group_loop tag 8 0 rest out startLen st with
        | .err out' e => (out', some e)
        | .done out' => (out', none)
        | .next rem' out' st' => block_loop fuel rem' out' startLen st'

/-- `decompress_compressed_block(input, output)` (decompress.rs lines 82–159). -/
def decompress_compressed_block (input output : List Nat) :
    List Nat × Option DecompressionError :=
  block_loop (input.length + 1) input output output.length initAdaptive

/-- The `while in_pos < end` loop of `decompress` (decompress.rs lines 38–74),
fuel-indexed (each iteration consumes a 2-byte header plus at least one body
byte).  `rem` is the input from the current `in_pos` on. -/
def decompress_loop :
    Nat → List Nat → List Nat → List Nat × Option DecompressionError
  | 0, _, out => (out, none)
  | fuel + 1, rem, out =>
    match rem with
    | [] => (out, none)
    | [b] =>
      -- one byte left: trailing-null tolerance, else the 2-byte header read fails
      if b = 0 then (out, none) else (out, some .unexpectedEof)
    | b0 :: b1 :: rest =>
      let header := b0 + 256 * b1
      if header = 0 then (out, none)
      else
        let size := Nat.land header 0x0FFF + 1
        let isCompressed := Nat.land header 0x8000 ≠ 0
        if rest.length < size then (out, some .inputTooShort)
        else
          let blockSlice := rest.take size
          let step :=
            if isCompressed then decompress_compressed_block blockSlice out
            else (out ++ blockSlice, none)
          match step with
          | (out', some e) => (out', some e)
          | (out', none) => decompress_loop fuel (rest.drop size) out'

/-- `decompress(input, output)` (decompress.rs lines 28–77).  The capacity
reservation heuristic has no observable effect on the buffer contents and is
not modelled. -/
def decompress (input output : List Nat) : List Nat × Option DecompressionError :=
  decompress_loop (input.length + 1) input output

/-! ## Compressor  (`src/compress.rs`) -/

/-- `EMPTY_ENTRY = 0xFFFF`. -/
def EMPTY_ENTRY : Nat := 0xFFFF

/-- `MAX_MATCH = 4098`. -/
def MAX_MATCH : Nat := 4098

/-- `hash_3_bytes(b)` (compress.rs lines 286–289):
`(((b0 << 6) ^ (b1 << 3) ^ b2) & 0xFFF)`. -/
def hash_3_bytes (b0 b1 b2 : Nat) : Nat :=
  Nat.land (((b0 <<< 6) ^^^ (b1 <<< 3)) ^^^ b2) 0xFFF

/-- The hash of the three bytes starting at `i`. -/
def hash_at (chunk : List Nat) (i : Nat) : Nat :=
  hash_3_bytes (chunk.getD i 0) (chunk.getD (i + 1) 0) (chunk.getD (i + 2) 0)

/-- `Lznt1Context` (compress.rs lines 91–96): the `head` and `next` hash-chain
arrays, modelled as total functions from index to stored position
(`EMPTY_ENTRY` when empty). -/
structure Lznt1Context where
  head : Nat → Nat
  next : Nat → Nat

/-- `Lznt1Context::new()` (lines 106–111): both arrays filled with
`EMPTY_ENTRY`. -/
def ctx_new : Lznt1Context := ⟨fun _ => EMPTY_ENTRY, fun _ => EMPTY_ENTRY⟩

/-- `Lznt1Context::reset()` (lines 114–116): refills `head` only. -/
def ctx_reset (ctx : Lznt1Context) : Lznt1Context :=
  { ctx with head := fun _ => EMPTY_ENTRY }

/-- `Lznt1Context::update(input, idx)` (lines 122–129):
`next[idx] = head[h]; head[h] = idx` when at least 3 bytes remain at `idx`. -/
def ctx_update (ctx : Lznt1Context) (input : List Nat) (idx : Nat) : Lznt1Context :=
  if idx + 3 ≤ input.length then
    { head := fun x => if x = hash_at input idx then idx else ctx.head x
      next := fun x => if x = idx then ctx.head (hash_at input idx) else ctx.next x }
  else ctx

/-- The `for _ in 0..best_len { ctx.update(chunk, in_idx); in_idx += 1 }` loop
(compress.rs lines 251–254). -/
def ctx_update_range (ctx : Lznt1Context) (chunk : List Nat) (idx : Nat) :
    Nat → Lznt1Context
  | 0 => ctx
  | n + 1 => ctx_update_range (ctx_update ctx chunk idx) chunk (idx + 1) n

/-- `common_prefix_len(a, b, max)` (compress.rs lines 293–300): the length of
the common prefix of `a` and `b`, capped at `max` and at both lengths. -/
def common_prefix_len : List Nat → List Nat → Nat → Nat
  | a0 :: a, b0 :: b, m + 1 => if a0 = b0 then common_prefix_len a b m + 1 else 0
  | _, _, _ => 0

/-- The hash-chain walk of the match finder (compress.rs lines 200–231):
`while candidate_idx != EMPTY_ENTRY && depth < MAX_SEARCH_DEPTH`.  The fuel is
`MAX_SEARCH_DEPTH - depth`, initially 16.  Returns the updated
`(best_len, best_off)`. -/
def find_match_loop (chunk : List Nat) (ctx : Lznt1Context) (in_idx max_offset : Nat) :
    Nat → Nat → Nat → Nat → Nat × Nat
  | 0, _, best_len, best_off => (best_len, best_off)
  | depth_fuel + 1, candidate_idx, best_len, best_off =>
    if candidate_idx = EMPTY_ENTRY then (best_len, best_off)
    else if in_idx ≤ candidate_idx then (best_len, best_off)   -- `candidate >= in_idx` break
    else
      let dist := in_idx - candidate_idx
      if max_offset ≤ dist then (best_len, best_off)           -- `dist >= max_offset` break
      else if in_idx + best_len < chunk.length ∧
          chunk.getD (candidate_idx + best_len) 0 = chunk.getD (in_idx + best_len) 0 then
        let match_len :=
          common_prefix_len (chunk.drop in_idx) (chunk.drop candidate_idx) MAX_MATCH
        if 3 ≤ match_len ∧ best_len < match_len then
          if MAX_MATCH ≤ match_len then (MAX_MATCH, dist)      -- `best_len >= MAX_MATCH` break
          else find_match_loop chunk ctx in_idx max_offset depth_fuel
            (ctx.next candidate_idx) match_len dist
        else find_match_loop chunk ctx in_idx max_offset depth_fuel
          (ctx.next candidate_idx) best_len best_off
      else find_match_loop chunk ctx in_idx max_offset depth_fuel
        (ctx.next candidate_idx) best_len best_off

/-- A token pushed into the `TagAccumulator`: a literal byte or an encoded
16-bit tuple. -/
inductive Token where
  | lit (b : Nat)
  | tup (tv : Nat)
deriving DecidableEq, Repr

/-- Whether a token is a back-reference tuple (its tag bit value). -/
def tokIsTup : Token → Bool
  | .lit _ => false
  | .tup _ => true

/-- The bytes a token contributes to the group buffer: one byte for a literal,
the two little-endian tuple bytes for a tuple. -/
def tokenBytes : Token → List Nat
  | .lit b => [b]
  | .tup tv => [tv % 256, tv / 256 % 256]

/-- `TagAccumulator` (compress.rs lines 30–35); the fixed `[u8; 16]` buffer and
its fill level are modelled as a byte list. -/
structure TagAccumulator where
  tag_byte : Nat
  item_count : Nat
  buffer : List Nat
deriving DecidableEq, Repr

/-- `TagAccumulator::new()` (lines 38–45). -/
def acc_init : TagAccumulator := ⟨0, 0, []⟩

/-- `TagAccumulator::flush(output)` (lines 78–87). -/
def acc_flush (a : TagAccumulator) (out : List Nat) : TagAccumulator × List Nat :=
  if 0 < a.item_count then (⟨0, 0, []⟩, out ++ a.tag_byte :: a.buffer)
  else (a, out)

/-- `TagAccumulator::commit_item(output)` (lines 70–75). -/
def acc_commit (a : TagAccumulator) (out : List Nat) : TagAccumulator × List Nat :=
  let a' : TagAccumulator := { a with item_count := a.item_count + 1 }
  if a'.item_count = 8 then acc_flush a' out else (a', out)

/-- `TagAccumulator::push_literal(byte, output)` (lines 48–53). -/
def acc_push_literal (a : TagAccumulator) (b : Nat) (out : List Nat) :
    TagAccumulator × List Nat :=
  acc_commit { a with buffer := a.buffer ++ [b] } out

/-- `TagAccumulator::push_tuple(tuple, output)` (lines 56–67). -/
def acc_push_tuple (a : TagAccumulator) (tv : Nat) (out : List Nat) :
    TagAccumulator × List Nat :=
  acc_commit
    { a with
      tag_byte := Nat.lor a.tag_byte (1 <<< a.item_count)
      buffer := a.buffer ++ [tv % 256, tv / 256 % 256] } out

/-- Dispatch a token to `push_literal` / `push_tuple`. -/
def acc_push (a : TagAccumulator) (out : List Nat) : Token → TagAccumulator × List Nat
  | .lit b => acc_push_literal a b out
  | .tup tv => acc_push_tuple a tv out

/-- The `while blob_out_len > threshold` update of `compress_chunk`
(compress.rs lines 265–270), fuel-indexed like `adaptive_go`.  The compressor
side tracks no mask. -/
def comp_adaptive_go (n : Nat) : Nat → Nat → Nat → Nat × Nat
  | 0, split, threshold => (split, threshold)
  | fuel + 1, split, threshold =>
    if threshold < n then
      comp_adaptive_go n fuel (if 0 < split then split - 1 else split) (threshold * 2)
    else (split, threshold)

/-- The compressor-side adaptive update (compress.rs lines 264–270). -/
def comp_adaptive_update (n split threshold : Nat) : Nat × Nat :=
  comp_adaptive_go n n split threshold

/-- The result of one iteration of the `while in_idx < chunk.len()` loop of
`compress_chunk`: the emitted token and the updated context, position,
`blob_out_len`, `split` and `threshold`. -/
structure ChunkStep where
  token : Token
  ctx : Lznt1Context
  in_idx : Nat
  blob : Nat
  split : Nat
  threshold : Nat

/-- One iteration body of `compress_chunk`'s main loop (compress.rs lines
186–271): find the best match, emit a tuple (with length clamped to the
current split) or a literal, update the hash chain for every covered byte, and
run the adaptive threshold update. -/
def chunk_step (chunk : List Nat) (ctx : Lznt1Context)
    (in_idx blob split threshold : Nat) : ChunkStep :=
  let off_bits := 16 - split
  let max_offset := 1 <<< off_bits
  let best :=
    if in_idx + 3 ≤ chunk.length then
      find_match_loop chunk ctx in_idx max_offset 16 (ctx.head (hash_at chunk in_idx)) 0 0
    else (0, 0)
  let best_len := best.1
  let best_off := best.2
  if 3 ≤ best_len then
    let max_len_encodable := (1 <<< split) + 2
    let len := if max_len_encodable < best_len then max_len_encodable else best_len
    let tuple := Nat.lor ((best_off - 1) <<< split) (len - 3) % 65536
    let ctx' := ctx_update_range ctx chunk in_idx len
    let ad := comp_adaptive_update (blob + len) split threshold
    ⟨.tup tuple, ctx', in_idx + len, blob + len, ad.1, ad.2⟩
  else
    let ctx' := ctx_update ctx chunk in_idx
    let ad := comp_adaptive_update (blob + 1) split threshold
    ⟨.lit (chunk.getD in_idx 0), ctx', in_idx + 1, blob + 1, ad.1, ad.2⟩

/-- The main loop of `compress_chunk` (compress.rs lines 186–274), threading
the `TagAccumulator` and the output buffer exactly as the source, including
the final `accumulator.flush(output)`.  Fuel-indexed: every iteration advances
`in_idx` by at least one, so `chunk.length + 1` fuel always reaches the exit
condition. -/
def compress_chunk_loop (chunk : List Nat) :
    Nat → Lznt1Context → Nat → Nat → Nat → Nat → TagAccumulator → List Nat →
    List Nat × Lznt1Context
  | 0, ctx, _, _, _, _, acc, out => ((acc_flush acc out).2, ctx)
  | fuel + 1, ctx, in_idx, blob, split, threshold, acc, out =>
    if in_idx < chunk.length then
      let s := chunk_step chunk ctx in_idx blob split threshold
      let pushed := acc_push acc out s.token
      compress_chunk_loop chunk fuel s.ctx s.in_idx s.blob s.split s.threshold
        pushed.1 pushed.2
    else ((acc_flush acc out).2, ctx)

/-- The token stream the chunk loop emits, used as the specification side of
the accumulator refactoring lemma.  Same decisions (`chunk_step`), no
byte-level packing. -/
def chunk_tokens (chunk : List Nat) :
    Nat → Lznt1Context → Nat → Nat → Nat → Nat → List Token
  | 0, _, _, _, _, _ => []
  | fuel + 1, ctx, in_idx, blob, split, threshold =>
    if in_idx < chunk.length then
      let s := chunk_step chunk ctx in_idx blob split threshold
      s.token :: chunk_tokens chunk fuel s.ctx s.in_idx s.blob s.split s.threshold
    else []

/-- The final context produced by the chunk loop (the `.2` of
`compress_chunk_loop`, as a standalone function). -/
def chunk_final_ctx (chunk : List Nat) :
    Nat → Lznt1Context → Nat → Nat → Nat → Nat → Lznt1Context
  | 0, ctx, _, _, _, _ => ctx
  | fuel + 1, ctx, in_idx, blob, split, threshold =>
    if in_idx < chunk.length then
      let s := chunk_step chunk ctx in_idx blob split threshold
      chunk_final_ctx chunk fuel s.ctx s.in_idx s.blob s.split s.threshold
    else ctx

/-- The tag byte of a group of at most 8 tokens, LSB first (bit `i` is set
exactly when token `i` is a tuple). -/
def groupTag : List Token → Nat
  | [] => 0
  | t :: ts => (tokIsTup t).toNat + 2 * groupTag ts

/-- The data bytes of a group of tokens. -/
def groupBody : List Token → List Nat
  | [] => []
  | t :: ts => tokenBytes t ++ groupBody ts

/-- The byte stream produced by packing a token list into tag groups of 8
(one flag byte, then the token bytes), with a trailing partial group flushed
if non-empty — the observable output of the `TagAccumulator` discipline.
Fuel-indexed (each step consumes 8 tokens). -/
def encode_groups : Nat → List Token → List Nat
  | 0, _ => []
  | _, [] => []
  | fuel + 1, t :: ts =>
    (groupTag ((t :: ts).take 8) :: groupBody ((t :: ts).take 8)) ++
      encode_groups fuel ((t :: ts).drop 8)

/-- `compress_chunk(chunk, output, ctx)` (compress.rs lines 175–275), as a
function from the chunk and incoming context to the appended bytes and the
final context.  `ctx.reset()` refills `head` at entry; the initial adaptive
state is `split = 12`, `threshold = 16`. -/
def compress_chunk (chunk : List Nat) (ctx : Lznt1Context) :
    List Nat × Lznt1Context :=
  compress_chunk_loop chunk (chunk.length + 1) (ctx_reset ctx) 0 0 12 16 acc_init []

/-- `encode_header(flag, size)` (compress.rs lines 280–282):
`flag | ((size - 1) as u16 & 0x0FFF)`. -/
def encode_header (flag size : Nat) : Nat :=
  Nat.lor flag (Nat.land ((size - 1) % 65536) 0x0FFF)

/-- `u16::to_le_bytes`. -/
def u16le (v : Nat) : List Nat := [v % 256, v / 256 % 256]

/-- The `while src_pos < input.len()` loop of `compress` (compress.rs lines
144–171), fuel-indexed.  Per chunk the source writes a 2-byte placeholder,
compresses, and then either rewrites the placeholder with the compressed
header (when the body came out strictly smaller than the chunk) or truncates
back and stores the raw chunk behind a raw header; the net appended bytes are
`header ++ body` resp. `header ++ chunk`, which is what this function
appends. -/
def compress_loop (input : List Nat) :
    Nat → Nat → Lznt1Context → List Nat
  | 0, _, _ => []
  | fuel + 1, src_pos, ctx =>
    if src_pos < input.length then
      let chunk_len := min (input.length - src_pos) 4096
      let chunk := (input.drop src_pos).take chunk_len
      let res := compress_chunk chunk ctx
      let chunk_out :=
        if res.1.length < chunk.length then
          u16le (encode_header 0xB000 res.1.length) ++ res.1
        else
          u16le (encode_header 0x3000 chunk.length) ++ chunk
      chunk_out ++ compress_loop input fuel (src_pos + chunk_len) res.2
    else []

/-- `compress(input, output)` (compress.rs lines 140–172): the loop's appended
bytes concatenated onto the caller's buffer. -/
def compress (input output : List Nat) : List Nat :=
  output ++ compress_loop input (input.length + 1) 0 ctx_new

/-! ## Lemmas about the adaptive-split state machine -/

/-- With the target already at or below the threshold, the update loop exits
immediately, for any fuel. -/
theorem adaptive_go_of_le {n : Nat} (f : Nat) (s : AdaptiveState)
    (h : n ≤ s.threshold) : adaptive_go n f s = s := by
  cases f with
  | zero => rfl
  | succ f => simp [adaptive_go, Nat.not_lt.mpr h]

/-- `adaptiveStep` keeps the threshold positive. -/
theorem adaptiveStep_threshold_pos {s : AdaptiveState} (h : 0 < s.threshold) :
    0 < (adaptiveStep s).threshold := by
  unfold adaptiveStep
  split <;> simpa using h

/-- Any fuel of at least `n - threshold` (in particular `n` itself) is enough
for the update loop: the result no longer depends on the fuel. -/
theorem adaptive_go_fuel_irrel {n : Nat} :
    ∀ (f f' : Nat) (s : AdaptiveState), 0 < s.threshold →
      n - s.threshold ≤ f → n - s.threshold ≤ f' →
      adaptive_go n f s = adaptive_go n f' s := by
  intro f
  induction f with
  | zero =>
    intro f' s hpos hf hf'
    have hle : n ≤ s.threshold := by omega
    rw [adaptive_go_of_le 0 s hle, adaptive_go_of_le f' s hle]
  | succ f ih =>
    intro f' s hpos hf hf'
    by_cases hlt : s.threshold < n
    · have hf1 : 1 ≤ n - s.threshold := by omega
      obtain ⟨f'', rfl⟩ : ∃ f'', f' = f'' + 1 := ⟨f' - 1, by omega⟩
      show adaptive_go n (f + 1) s = adaptive_go n (f'' + 1) s
      simp only [adaptive_go, if_pos hlt]
      have hth : s.threshold + 1 ≤ (adaptiveStep s).threshold := by
        unfold adaptiveStep; split <;> simp <;> omega
      exact ih f'' (adaptiveStep s) (adaptiveStep_threshold_pos hpos)
        (by omega) (by omega)
    · have hle : n ≤ s.threshold := by omega
      rw [adaptive_go_of_le (f + 1) s hle, adaptive_go_of_le f' s hle]

/-- Exit equation of `update_adaptive_state`. -/
theorem update_adaptive_state_of_le {n : Nat} {s : AdaptiveState}
    (h : n ≤ s.threshold) : update_adaptive_state n s = s :=
  adaptive_go_of_le n s h

/-- Step equation of `update_adaptive_state`. -/
theorem update_adaptive_state_step {n : Nat} {s : AdaptiveState}
    (hpos : 0 < s.threshold) (h : s.threshold < n) :
    update_adaptive_state n s = update_adaptive_state n (adaptiveStep s) := by
  unfold update_adaptive_state
  obtain ⟨m, rfl⟩ : ∃ m, n = m + 1 := ⟨n - 1, by omega⟩
  have h1 : adaptive_go (m + 1) (m + 1) s = adaptive_go (m + 1) m (adaptiveStep s) := by
    simp [adaptive_go, if_pos h]
  rw [h1]
  have hth : s.threshold + 1 ≤ (adaptiveStep s).threshold := by
    unfold adaptiveStep; split <;> simp <;> omega
  exact adaptive_go_fuel_irrel m (m + 1) (adaptiveStep s)
    (adaptiveStep_threshold_pos hpos) (by omega) (by omega)

/-- The update loop keeps the threshold positive (any fuel). -/
theorem adaptive_go_threshold_pos {n : Nat} :
    ∀ (f : Nat) (s : AdaptiveState), 0 < s.threshold →
      0 < (adaptive_go n f s).threshold := by
  intro f
  induction f with
  | zero => intro s h; exact h
  | succ f ih =>
    intro s h
    unfold adaptive_go
    split
    · exact ih _ (adaptiveStep_threshold_pos h)
    · exact h

/-- The update keeps the threshold positive. -/
theorem update_threshold_pos {n : Nat} {s : AdaptiveState} (h : 0 < s.threshold) :
    0 < (update_adaptive_state n s).threshold :=
  adaptive_go_threshold_pos n s h

/-- The update loop never increases the split (any fuel). -/
theorem adaptive_go_split_le {n : Nat} :
    ∀ (f : Nat) (s : AdaptiveState), (adaptive_go n f s).split ≤ s.split := by
  intro f
  induction f with
  | zero => intro s; exact Nat.le_refl _
  | succ f ih =>
    intro s
    unfold adaptive_go
    split
    · refine Nat.le_trans (ih (adaptiveStep s)) ?_
      unfold adaptiveStep; split <;> simp
    · exact Nat.le_refl _

/-- The update never increases the split. -/
theorem update_split_le {n : Nat} {s : AdaptiveState} :
    (update_adaptive_state n s).split ≤ s.split :=
  adaptive_go_split_le n s

/-- The update loop preserves the invariant `mask = 2 ^ split - 1` (any fuel). -/
theorem adaptive_go_mask {n : Nat} :
    ∀ (f : Nat) (s : AdaptiveState), s.mask = 2 ^ s.split - 1 →
      (adaptive_go n f s).mask = 2 ^ (adaptive_go n f s).split - 1 := by
  intro f
  induction f with
  | zero => intro s h; exact h
  | succ f ih =>
    intro s h
    unfold adaptive_go
    split
    · refine ih (adaptiveStep s) ?_
      unfold adaptiveStep
      split
      · simp [Nat.one_shiftLeft]
      · exact h
    · exact h

/-- The update preserves `mask = 2 ^ split - 1`. -/
theorem update_mask {n : Nat} {s : AdaptiveState} (h : s.mask = 2 ^ s.split - 1) :
    (update_adaptive_state n s).mask = 2 ^ (update_adaptive_state n s).split - 1 :=
  adaptive_go_mask n s h

/-- Catching up to `n₁` and then to a larger `n₂` is the same as catching up to
`n₂` directly. -/
theorem update_adaptive_state_comp {n₁ n₂ : Nat} (h12 : n₁ ≤ n₂) :
    ∀ (f : Nat) (s : AdaptiveState), 0 < s.threshold → n₁ - s.threshold ≤ f →
      update_adaptive_state n₂ (update_adaptive_state n₁ s) =
        update_adaptive_state n₂ s := by
  intro f
  induction f with
  | zero =>
    intro s hpos hf
    rw [show update_adaptive_state n₁ s = s from update_adaptive_state_of_le (by omega)]
  | succ f ih =>
    intro s hpos hf
    by_cases hlt : s.threshold < n₁
    · rw [update_adaptive_state_step hpos hlt,
        update_adaptive_state_step hpos (by omega : s.threshold < n₂)]
      have hth : s.threshold + 1 ≤ (adaptiveStep s).threshold := by
        unfold adaptiveStep; split <;> simp <;> omega
      exact ih (adaptiveStep s) (adaptiveStep_threshold_pos hpos) (by omega)
    · rw [show update_adaptive_state n₁ s = s from update_adaptive_state_of_le (by omega)]

/-- The canonical per-chunk state: composition property. -/
theorem adSt_comp {n₁ n₂ : Nat} (h : n₁ ≤ n₂) :
    update_adaptive_state n₂ (adSt n₁) = adSt n₂ :=
  update_adaptive_state_comp h n₁ initAdaptive (by decide) (by simp [initAdaptive])

/-- The canonical state at 0 is the initial state. -/
theorem adSt_zero : adSt 0 = initAdaptive := rfl

/-- The canonical state keeps a positive threshold. -/
theorem adSt_threshold_pos (n : Nat) : 0 < (adSt n).threshold :=
  update_threshold_pos (by decide)

/-- The canonical state satisfies `mask = 2 ^ split - 1`. -/
theorem adSt_mask (n : Nat) : (adSt n).mask = 2 ^ (adSt n).split - 1 :=
  update_mask (by decide)

/-- The canonical split never exceeds 12. -/
theorem adSt_split_le (n : Nat) : (adSt n).split ≤ 12 :=
  update_split_le

/-- The compressor-side adaptive loop (no mask) computes the same split and
threshold as the decompressor-side loop, for every fuel. -/
theorem comp_adaptive_go_eq {n : Nat} :
    ∀ (f split threshold mask : Nat),
      comp_adaptive_go n f split threshold =
        ((adaptive_go n f ⟨split, mask, threshold⟩).split,
          (adaptive_go n f ⟨split, mask, threshold⟩).threshold) := by
  intro f
  induction f with
  | zero => intro split threshold mask; rfl
  | succ f ih =>
    intro split threshold mask
    show (if threshold < n then _ else _) = _
    unfold adaptive_go
    by_cases hlt : threshold < n
    · simp only [if_pos hlt]
      show _ = ((adaptive_go n f (adaptiveStep ⟨split, mask, threshold⟩)).split,
        (adaptive_go n f (adaptiveStep ⟨split, mask, threshold⟩)).threshold)
      unfold adaptiveStep
      by_cases hs : 0 < split
      · simpa [hs] using ih (split - 1) (threshold * 2) ((1 <<< (split - 1)) - 1)
      · simpa [hs] using ih split (threshold * 2) mask
    · simp [hlt]

/-- The compressor-side update agrees with the decompressor-side update. -/
theorem comp_adaptive_update_eq (n split threshold mask : Nat) :
    comp_adaptive_update n split threshold =
      ((update_adaptive_state n ⟨split, mask, threshold⟩).split,
        (update_adaptive_state n ⟨split, mask, threshold⟩).threshold) :=
  comp_adaptive_go_eq n split threshold mask

/-- Closed form of the canonical adaptive state over the whole in-chunk range:
the split drops by one exactly as `n` first exceeds each doubled threshold. -/
theorem adSt_table (n : Nat) :
    (n ≤ 16 → adSt n = ⟨12, 4095, 16⟩) ∧
    (17 ≤ n → n ≤ 32 → adSt n = ⟨11, 2047, 32⟩) ∧
    (33 ≤ n → n ≤ 64 → adSt n = ⟨10, 1023, 64⟩) ∧
    (65 ≤ n → n ≤ 128 → adSt n = ⟨9, 511, 128⟩) ∧
    (129 ≤ n → n ≤ 256 → adSt n = ⟨8, 255, 256⟩) ∧
    (257 ≤ n → n ≤ 512 → adSt n = ⟨7, 127, 512⟩) ∧
    (513 ≤ n → n ≤ 1024 → adSt n = ⟨6, 63, 1024⟩) ∧
    (1025 ≤ n → n ≤ 2048 → adSt n = ⟨5, 31, 2048⟩) ∧
    (2049 ≤ n → n ≤ 4096 → adSt n = ⟨4, 15, 4096⟩) := by
  have e0 : adaptiveStep ⟨12, 4095, 16⟩ = ⟨11, 2047, 32⟩ := by decide
  have e1 : adaptiveStep ⟨11, 2047, 32⟩ = ⟨10, 1023, 64⟩ := by decide
  have e2 : adaptiveStep ⟨10, 1023, 64⟩ = ⟨9, 511, 128⟩ := by decide
  have e3 : adaptiveStep ⟨9, 511, 128⟩ = ⟨8, 255, 256⟩ := by decide
  have e4 : adaptiveStep ⟨8, 255, 256⟩ = ⟨7, 127, 512⟩ := by decide
  have e5 : adaptiveStep ⟨7, 127, 512⟩ = ⟨6, 63, 1024⟩ := by decide
  have e6 : adaptiveStep ⟨6, 63, 1024⟩ = ⟨5, 31, 2048⟩ := by decide
  have e7 : adaptiveStep ⟨5, 31, 2048⟩ = ⟨4, 15, 4096⟩ := by decide
  unfold adSt initAdaptive
  refine ⟨fun h => update_adaptive_state_of_le (by simpa using h), ?_⟩
  constructor
  · intro h1 h2
    rw [update_adaptive_state_step (by decide) (by simpa using h1), e0]
    exact update_adaptive_state_of_le (by simpa using h2)
  constructor
  · intro h1 h2
    rw [update_adaptive_state_step (by decide) (by simp; omega), e0,
      update_adaptive_state_step (by decide) (by simp; omega), e1]
    exact update_adaptive_state_of_le (by simpa using h2)
  constructor
  · intro h1 h2
    rw [update_adaptive_state_step (by decide) (by simp; omega), e0,
      update_adaptive_state_step (by decide) (by simp; omega), e1,
      update_adaptive_state_step (by decide) (by simp; omega), e2]
    exact update_adaptive_state_of_le (by simpa using h2)
  constructor
  · intro h1 h2
    rw [update_adaptive_state_step (by decide) (by simp; omega), e0,
      update_adaptive_state_step (by decide) (by simp; omega), e1,
      update_adaptive_state_step (by decide) (by simp; omega), e2,
      update_adaptive_state_step (by decide) (by simp; omega), e3]
    exact update_adaptive_state_of_le (by simpa using h2)
  constructor
  · intro h1 h2
    rw [update_adaptive_state_step (by decide) (by simp; omega), e0,
      update_adaptive_state_step (by decide) (by simp; omega), e1,
      update_adaptive_state_step (by decide) (by simp; omega), e2,
      update_adaptive_state_step (by decide) (by simp; omega), e3,
      update_adaptive_state_step (by decide) (by simp; omega), e4]
    exact update_adaptive_state_of_le (by simpa using h2)
  constructor
  · intro h1 h2
    rw [update_adaptive_state_step (by decide) (by simp; omega), e0,
      update_adaptive_state_step (by decide) (by simp; omega), e1,
      update_adaptive_state_step (by decide) (by simp; omega), e2,
      update_adaptive_state_step (by decide) (by simp; omega), e3,
      update_adaptive_state_step (by decide) (by simp; omega), e4,
      update_adaptive_state_step (by decide) (by simp; omega), e5]
    exact update_adaptive_state_of_le (by simpa using h2)
  constructor
  · intro h1 h2
    rw [update_adaptive_state_step (by decide) (by simp; omega), e0,
      update_adaptive_state_step (by decide) (by simp; omega), e1,
      update_adaptive_state_step (by decide) (by simp; omega), e2,
      update_adaptive_state_step (by decide) (by simp; omega), e3,
      update_adaptive_state_step (by decide) (by simp; omega), e4,
      update_adaptive_state_step (by decide) (by simp; omega), e5,
      update_adaptive_state_step (by decide) (by simp; omega), e6]
    exact update_adaptive_state_of_le (by simpa using h2)
  · intro h1 h2
    rw [update_adaptive_state_step (by decide) (by simp; omega), e0,
      update_adaptive_state_step (by decide) (by simp; omega), e1,
      update_adaptive_state_step (by decide) (by simp; omega), e2,
      update_adaptive_state_step (by decide) (by simp; omega), e3,
      update_adaptive_state_step (by decide) (by simp; omega), e4,
      update_adaptive_state_step (by decide) (by simp; omega), e5,
      update_adaptive_state_step (by decide) (by simp; omega), e6,
      update_adaptive_state_step (by decide) (by simp; omega), e7]
    exact update_adaptive_state_of_le (by simpa using h2)

/-- The canonical split is non-increasing in the number of bytes produced. -/
theorem adSt_split_mono {n₁ n₂ : Nat} (h : n₁ ≤ n₂) :
    (adSt n₂).split ≤ (adSt n₁).split := by
  rw [← adSt_comp h]
  exact update_split_le

/-! ## List indexing helpers -/

theorem getD_append_left {l₁ l₂ : List Nat} {i : Nat} (h : i < l₁.length) :
    (l₁ ++ l₂).getD i 0 = l₁.getD i 0 := by
  induction l₁ generalizing i with
  | nil => simp at h
  | cons a l ih =>
    cases i with
    | zero => rfl
    | succ i => simpa using ih (by simpa using h)

theorem getD_append_right (l₁ l₂ : List Nat) (i : Nat) :
    (l₁ ++ l₂).getD (l₁.length + i) 0 = l₂.getD i 0 := by
  induction l₁ with
  | nil => simp
  | cons a l ih => simpa [Nat.succ_add] using ih

theorem getD_drop (l : List Nat) (n i : Nat) :
    (l.drop n).getD i 0 = l.getD (n + i) 0 := by
  induction l generalizing n with
  | nil => simp
  | cons a l ih =>
    cases n with
    | zero => simp
    | succ n =>
      rw [List.drop_succ_cons, ih n]
      have : n + 1 + i = (n + i) + 1 := by omega
      rw [this]
      rfl

theorem getD_take {l : List Nat} {n i : Nat} (h : i < n) :
    (l.take n).getD i 0 = l.getD i 0 := by
  induction l generalizing n i with
  | nil => simp
  | cons a l ih =>
    cases n with
    | zero => omega
    | succ n =>
      cases i with
      | zero => rfl
      | succ i => simpa using ih (by omega)

theorem take_succ_getD {l : List Nat} {i : Nat} (h : i < l.length) :
    l.take (i + 1) = l.take i ++ [l.getD i 0] := by
  induction l generalizing i with
  | nil => simp at h
  | cons a l ih =>
    cases i with
    | zero => rfl
    | succ i => simpa using ih (by simpa using h)

/-! ## Bit-arithmetic helpers for tuple and header packing -/

/-- `Nat.land` is the function behind `&&&` (and similarly for `|||`). -/
theorem land_eq_and (a b : Nat) : Nat.land a b = a &&& b := rfl

theorem lor_eq_or (a b : Nat) : Nat.lor a b = a ||| b := rfl

/-- Recovering the low field of a packed word: `((b <<< s) ||| a) % 2 ^ s = a`
when `a < 2 ^ s`. -/
theorem pack_mod {b a s : Nat} (h : a < 2 ^ s) :
    ((b <<< s) ||| a) % 2 ^ s = a := by
  apply Nat.eq_of_testBit_eq
  intro i
  rw [Nat.testBit_mod_two_pow, Nat.testBit_lor, Nat.testBit_shiftLeft]
  by_cases hi : i < s
  · simp [hi, Nat.not_le.mpr hi]
  · have ha : a.testBit i = false :=
      Nat.testBit_lt_two_pow
        (lt_of_lt_of_le h (Nat.pow_le_pow_right (by norm_num) (by omega)))
    simp [hi, ha]

/-- Recovering the high field of a packed word: `((b <<< s) ||| a) >>> s = b`
when `a < 2 ^ s`. -/
theorem pack_shift {b a s : Nat} (h : a < 2 ^ s) :
    ((b <<< s) ||| a) >>> s = b := by
  apply Nat.eq_of_testBit_eq
  intro i
  rw [Nat.testBit_shiftRight, Nat.testBit_lor, Nat.testBit_shiftLeft]
  have ha : a.testBit (s + i) = false :=
    Nat.testBit_lt_two_pow
      (lt_of_lt_of_le h (Nat.pow_le_pow_right (by norm_num) (by omega)))
  simp [ha, Nat.le_add_right]

/-- A packed 16-bit tuple stays below `2 ^ 16`. -/
theorem pack_lt_u16 {b a s : Nat} (hs : s ≤ 16) (hb : b < 2 ^ (16 - s))
    (ha : a < 2 ^ s) : (b <<< s) ||| a < 65536 := by
  have h1 : b <<< s < 2 ^ 16 := by
    rw [Nat.shiftLeft_eq]
    calc b * 2 ^ s < 2 ^ (16 - s) * 2 ^ s :=
          Nat.mul_lt_mul_of_lt_of_le hb (Nat.le_refl _) (Nat.two_pow_pos s)
    _ = 2 ^ 16 := by rw [← Nat.pow_add]; congr 1; omega
  have h2 : a < 2 ^ 16 :=
    lt_of_lt_of_le ha (Nat.pow_le_pow_right (by norm_num) hs)
  have := Nat.or_lt_two_pow h1 h2
  simpa using this

/-- `u16::to_le_bytes` followed by `u16::from_le_bytes` is the identity below
`2 ^ 16`. -/
theorem u16_le_roundtrip {x : Nat} (h : x < 65536) :
    x % 256 + 256 * (x / 256 % 256) = x := by
  rw [Nat.mod_eq_of_lt (show x / 256 < 256 by omega)]
  exact Nat.mod_add_div x 256

/-- `encode_header` with an in-range size is a plain bitwise-or with
`size - 1`. -/
theorem encode_header_eq (flag : Nat) {size : Nat} (h1 : 1 ≤ size)
    (h2 : size ≤ 4096) : encode_header flag size = flag ||| (size - 1) := by
  unfold encode_header
  rw [Nat.mod_eq_of_lt (by omega), lor_eq_or, land_eq_and]
  have e : (0x0FFF : Nat) = 2 ^ 12 - 1 := by norm_num
  have h := Nat.and_pow_two_sub_one_eq_mod (size - 1) 12
  rw [e, h, Nat.mod_eq_of_lt (by omega)]

/-- Extracting the size field from a header made of a high nibble and a
12-bit payload. -/
theorem land_fff_pack {g x : Nat} (hx : x < 4096) :
    Nat.land ((g <<< 12) ||| x) 0x0FFF = x := by
  have e : (0x0FFF : Nat) = 2 ^ 12 - 1 := by norm_num
  rw [land_eq_and, e, Nat.and_pow_two_sub_one_eq_mod]
  exact pack_mod (by simpa using hx)

/-- The compressed-flag test on a header whose bit 15 is known. -/
theorem land_8000_eq (h : Nat) :
    Nat.land h 0x8000 = (h.testBit 15).toNat * 32768 := by
  have e : (0x8000 : Nat) = 2 ^ 15 := by norm_num
  rw [land_eq_and, e, Nat.and_two_pow]

/-- A compressed header (`0xB000` plus a 12-bit payload) has bit 15 set. -/
theorem testBit15_comp {x : Nat} : ((0xB000 : Nat) ||| x).testBit 15 = true := by
  rw [Nat.testBit_lor]
  have h1 : (0xB000 : Nat).testBit 15 = true := by decide
  simp [h1]

/-- A raw header (`0x3000` plus a 12-bit payload) has bit 15 clear. -/
theorem testBit15_raw {x : Nat} (hx : x < 4096) :
    ((0x3000 : Nat) ||| x).testBit 15 = false := by
  rw [Nat.testBit_lor]
  have h1 : (0x3000 : Nat).testBit 15 = false := by decide
  have h2 : x.testBit 15 = false :=
    Nat.testBit_lt_two_pow (lt_of_lt_of_le hx (by norm_num))
  simp [h1, h2]

/-- Both header flags have bit 12 set, so a header is never the `0x0000`
terminator. -/
theorem header_ne_zero {f x : Nat} (hb : f.testBit 12 = true) : f ||| x ≠ 0 := by
  intro h0
  have hbit : (f ||| x).testBit 12 = true := by
    rw [Nat.testBit_lor, hb]; simp
  rw [h0] at hbit
  simp [Nat.zero_testBit] at hbit

/-! ## Match materialization -/

/-- `lzCopy` appends exactly `len` bytes. -/
theorem lzCopy_length : ∀ (len : Nat) (out : List Nat) (srcPos : Nat),
    (lzCopy out srcPos len).length = out.length + len := by
  intro len
  induction len with
  | zero => intro out srcPos; rfl
  | succ len ih =>
    intro out srcPos
    show (lzCopy (out ++ [out.getD srcPos 0]) (srcPos + 1) len).length = _
    rw [ih]
    simp
    omega

/-- `lzCopy` only appends. -/
theorem lzCopy_append : ∀ (len : Nat) (out : List Nat) (srcPos : Nat),
    ∃ t, lzCopy out srcPos len = out ++ t := by
  intro len
  induction len with
  | zero => intro out srcPos; exact ⟨[], by simp [lzCopy]⟩
  | succ len ih =>
    intro out srcPos
    obtain ⟨t, ht⟩ := ih (out ++ [out.getD srcPos 0]) (srcPos + 1)
    exact ⟨[out.getD srcPos 0] ++ t, by
      show lzCopy (out ++ [out.getD srcPos 0]) (srcPos + 1) len = _
      rw [ht, List.append_assoc]⟩

/-- When the output so far is `prev ++ chunk.take i` and the source range of a
match agrees with its target range inside `chunk` (the common-prefix property
established by the match finder), the forward copy reproduces the next `len`
chunk bytes — including overlapping matches. -/
theorem lzCopy_spec (chunk : List Nat) :
    ∀ (len : Nat) (prev : List Nat) (i off : Nat),
      1 ≤ off → off ≤ i → i + len ≤ chunk.length →
      (∀ k, k < len → chunk.getD (i - off + k) 0 = chunk.getD (i + k) 0) →
      lzCopy (prev ++ chunk.take i) (prev.length + i - off) len =
        prev ++ chunk.take (i + len) := by
  intro len
  induction len with
  | zero => intro prev i off _ _ _ _; simp [lzCopy]
  | succ len ih =>
    intro prev i off h1 h2 h3 hp
    have hi : i < chunk.length := by omega
    have hx : (prev ++ chunk.take i).getD (prev.length + i - off) 0 =
        chunk.getD i 0 := by
      have e1 : prev.length + i - off = prev.length + (i - off) := by omega
      rw [e1, getD_append_right, getD_take (by omega)]
      have e2 : i - off + 0 = i - off := by omega
      have := hp 0 (by omega)
      simpa using this
    show lzCopy ((prev ++ chunk.take i) ++ [(prev ++ chunk.take i).getD
      (prev.length + i - off) 0]) (prev.length + i - off + 1) len = _
    rw [hx, List.append_assoc, ← take_succ_getD hi]
    have e3 : prev.length + i - off + 1 = prev.length + (i + 1) - off := by omega
    have e4 : i + (len + 1) = (i + 1) + len := by omega
    rw [e3, e4]
    refine ih prev (i + 1) off h1 (by omega) (by omega) ?_
    intro k hk
    have e5 : i + 1 - off + k = i - off + (k + 1) := by omega
    have e6 : i + 1 + k = i + (k + 1) := by omega
    rw [e5, e6]
    exact hp (k + 1) (by omega)

/-- The RLE fast path (`offset == 1`) is byte-identical to the general forward
copy from `output.length - 1`. -/
theorem rle_eq_lzCopy : ∀ (len : Nat) (out : List Nat), 0 < out.length →
    out ++ List.replicate len (out.getD (out.length - 1) 0) =
      lzCopy out (out.length - 1) len := by
  intro len
  induction len with
  | zero => intro out _; simp [lzCopy]
  | succ len ih =>
    intro out hout
    show _ = lzCopy (out ++ [out.getD (out.length - 1) 0]) (out.length - 1 + 1) len
    have e0 : out.length - 1 + 1 = out.length := by omega
    set b := out.getD (out.length - 1) 0 with hb
    have e1 : (out ++ [b]).length - 1 = out.length := by simp
    have e2 : (out ++ [b]).getD ((out ++ [b]).length - 1) 0 = b := by
      rw [e1]
      have h := getD_append_right out [b] 0
      rw [Nat.add_zero] at h
      rw [h]
      rfl
    calc out ++ List.replicate (len + 1) b
        = (out ++ [b]) ++ List.replicate len b := by
          rw [List.append_assoc]
          simp [List.replicate_succ]
      _ = (out ++ [b]) ++ List.replicate len ((out ++ [b]).getD
            ((out ++ [b]).length - 1) 0) := by rw [e2]
      _ = lzCopy (out ++ [b]) ((out ++ [b]).length - 1) len :=
          ih (out ++ [b]) (by simp)
      _ = lzCopy (out ++ [b]) (out.length - 1 + 1) len := by rw [e1, e0]

/-- Successful `apply_match` on an output of the shape `prev ++ chunk.take i`,
with the match source inside the chunk part: the appended bytes are exactly
the next `len` chunk bytes. -/
theorem apply_match_ok (chunk prev : List Nat) {i off len : Nat}
    (h1 : 1 ≤ off) (h2 : off ≤ i) (h3 : i + len ≤ chunk.length)
    (hp : ∀ k, k < len → chunk.getD (i - off + k) 0 = chunk.getD (i + k) 0) :
    apply_match (prev ++ chunk.take i) len off =
      (prev ++ chunk.take (i + len), none) := by
  have hi : i ≤ chunk.length := by omega
  have hlen : (prev ++ chunk.take i).length = prev.length + i := by
    simp [List.length_take]
    omega
  unfold apply_match
  rw [if_neg (by omega)]
  by_cases hoff : off = 1
  · subst hoff
    rw [if_pos rfl, rle_eq_lzCopy len _ (by omega)]
    rw [hlen]
    have e : prev.length + i - 1 = prev.length + i - 1 := rfl
    have := lzCopy_spec chunk len prev i 1 (by omega) (by omega) h3 hp
    rw [← this]
  · rw [if_neg hoff, hlen]
    exact congrArg (fun l => (l, (none : Option DecompressionError)))
      (lzCopy_spec chunk len prev i off h1 h2 h3 hp)

/-- `apply_match` only appends (also on the error path, where the buffer is
returned unchanged). -/
theorem apply_match_append (out : List Nat) (len off : Nat) :
    ∃ t, (apply_match out len off).1 = out ++ t := by
  unfold apply_match
  split
  · exact ⟨[], by simp⟩
  · split
    · exact ⟨_, rfl⟩
    · simpa using lzCopy_append len out (out.length - off)

/-- `apply_match` appends at most `len` bytes. -/
theorem apply_match_length (out : List Nat) (len off : Nat) :
    (apply_match out len off).1.length ≤ out.length + len := by
  unfold apply_match
  split
  · simp
  · split
    · simp
    · simp [lzCopy_length]


/-! ## Match finder validity -/

theorem common_prefix_len_le_left :
    ∀ (a b : List Nat) (m : Nat), common_prefix_len a b m ≤ a.length := by
  intro a
  induction a with
  | nil => intro b m; cases b <;> cases m <;> simp [common_prefix_len]
  | cons a0 a ih =>
    intro b m
    cases b with
    | nil => cases m <;> simp [common_prefix_len]
    | cons b0 b =>
      cases m with
      | zero => simp [common_prefix_len]
      | succ m =>
        unfold common_prefix_len
        split
        · have := ih b m; simp; omega
        · simp

theorem common_prefix_len_le_right :
    ∀ (a b : List Nat) (m : Nat), common_prefix_len a b m ≤ b.length := by
  intro a
  induction a with
  | nil => intro b m; cases b <;> cases m <;> simp [common_prefix_len]
  | cons a0 a ih =>
    intro b m
    cases b with
    | nil => cases m <;> simp [common_prefix_len]
    | cons b0 b =>
      cases m with
      | zero => simp [common_prefix_len]
      | succ m =>
        unfold common_prefix_len
        split
        · have := ih b m; simp; omega
        · simp

theorem common_prefix_len_le_max :
    ∀ (a b : List Nat) (m : Nat), common_prefix_len a b m ≤ m := by
  intro a
  induction a with
  | nil => intro b m; cases b <;> cases m <;> simp [common_prefix_len]
  | cons a0 a ih =>
    intro b m
    cases b with
    | nil => cases m <;> simp [common_prefix_len]
    | cons b0 b =>
      cases m with
      | zero => simp [common_prefix_len]
      | succ m =>
        unfold common_prefix_len
        split
        · have := ih b m; omega
        · simp

/-- Within the common prefix, the two lists agree pointwise. -/
theorem common_prefix_len_spec :
    ∀ (a b : List Nat) (m k : Nat), k < common_prefix_len a b m →
      a.getD k 0 = b.getD k 0 := by
  intro a
  induction a with
  | nil => intro b m k h; cases b <;> cases m <;> simp [common_prefix_len] at h
  | cons a0 a ih =>
    intro b m k h
    cases b with
    | nil => cases m <;> simp [common_prefix_len] at h
    | cons b0 b =>
      cases m with
      | zero => simp [common_prefix_len] at h
      | succ m =>
        unfold common_prefix_len at h
        by_cases he : a0 = b0
        · rw [if_pos he] at h
          cases k with
          | zero => simpa using he
          | succ k => simpa using ih b m k (by omega)
        · rw [if_neg he] at h; omega

/-- Everything the round-trip proof needs to know about an accepted match at
position `i`: minimum length, in-window 1-based offset bounded by the
position, in-bounds target range, and the common-prefix property. -/
def MatchOk (chunk : List Nat) (i len off maxOff : Nat) : Prop :=
  3 ≤ len ∧ 1 ≤ off ∧ off ≤ i ∧ off < maxOff ∧ i + len ≤ chunk.length ∧
    ∀ k, k < len → chunk.getD (i - off + k) 0 = chunk.getD (i + k) 0

/-- The chain walk only ever returns the incoming best pair or a candidate
that passed all its dynamic checks; in particular any returned match of
length ≥ 3 is valid.  This holds for arbitrary hash-table contents. -/
theorem find_match_loop_ok (chunk : List Nat) (ctx : Lznt1Context)
    (in_idx max_offset : Nat) :
    ∀ (fuel cand bl bo : Nat),
      (bl < 3 ∨ MatchOk chunk in_idx bl bo max_offset) →
      (3 ≤ (find_match_loop chunk ctx in_idx max_offset fuel cand bl bo).1 →
        MatchOk chunk in_idx
          (find_match_loop chunk ctx in_idx max_offset fuel cand bl bo).1
          (find_match_loop chunk ctx in_idx max_offset fuel cand bl bo).2
          max_offset) := by
  intro fuel
  induction fuel with
  | zero =>
    intro cand bl bo hinv h3
    rcases hinv with h | h
    · exact absurd h3 (by simp [find_match_loop] at h3 ⊢; omega)
    · exact h
  | succ fuel ih =>
    intro cand bl bo hinv
    unfold find_match_loop
    by_cases h1 : cand = EMPTY_ENTRY
    · rw [if_pos h1]
      intro h3
      rcases hinv with h | h
      · exact absurd h3 (by omega)
      · exact h
    rw [if_neg h1]
    by_cases h2 : in_idx ≤ cand
    · rw [if_pos h2]
      intro h3
      rcases hinv with h | h
      · exact absurd h3 (by omega)
      · exact h
    rw [if_neg h2]
    by_cases h4 : max_offset ≤ in_idx - cand
    · rw [if_pos h4]
      intro h3
      rcases hinv with h | h
      · exact absurd h3 (by omega)
      · exact h
    rw [if_neg h4]
    by_cases h5 : in_idx + bl < chunk.length ∧
        chunk.getD (cand + bl) 0 = chunk.getD (in_idx + bl) 0
    swap
    · rw [if_neg h5]
      exact ih (ctx.next cand) bl bo hinv
    rw [if_pos h5]
    set ml := common_prefix_len (chunk.drop in_idx) (chunk.drop cand) MAX_MATCH with hml
    have hmok : 3 ≤ ml → MatchOk chunk in_idx ml (in_idx - cand) max_offset := by
      intro h3ml
      have hle : ml ≤ chunk.length - in_idx := by
        have := common_prefix_len_le_left (chunk.drop in_idx) (chunk.drop cand) MAX_MATCH
        simpa using this
      have hcle : ml ≤ chunk.length - cand := by
        have := common_prefix_len_le_right (chunk.drop in_idx) (chunk.drop cand) MAX_MATCH
        simpa using this
      refine ⟨h3ml, by omega, by omega, by omega, by omega, ?_⟩
      intro k hk
      have e1 : in_idx - (in_idx - cand) + k = cand + k := by omega
      rw [e1]
      have hs := common_prefix_len_spec (chunk.drop in_idx) (chunk.drop cand) MAX_MATCH k hk
      rw [getD_drop, getD_drop] at hs
      exact hs.symm
    by_cases h6 : 3 ≤ ml ∧ bl < ml
    · rw [if_pos h6]
      by_cases h7 : MAX_MATCH ≤ ml
      · rw [if_pos h7]
        intro _
        have hmm : ml = MAX_MATCH :=
          Nat.le_antisymm (common_prefix_len_le_max _ _ _) h7
        have := hmok h6.1
        rw [hmm] at this
        exact this
      · rw [if_neg h7]
        exact ih (ctx.next cand) ml (in_idx - cand) (Or.inr (hmok h6.1))
    · rw [if_neg h6]
      exact ih (ctx.next cand) bl bo hinv


/-! ## The token stream of a compressed chunk -/

/-- Validity of a token list with respect to the chunk contents, as the
decoder consumes it.  `TokStream chunk i toks` says: starting with `i` chunk
bytes already reproduced, decoding `toks` reproduces exactly the rest of the
chunk, every tuple is packed from a length and an offset that satisfy the
match-finder guarantees under the canonical adaptive state at its position,
and the stream ends exactly at the chunk end. -/
inductive TokStream (chunk : List Nat) : Nat → List Token → Prop where
  | nil : TokStream chunk chunk.length []
  | lit (i : Nat) (rest : List Token) (hi : i < chunk.length)
      (h : TokStream chunk (i + 1) rest) :
      TokStream chunk i (Token.lit (chunk.getD i 0) :: rest)
  | tup (i len off : Nat) (rest : List Token)
      (h3 : 3 ≤ len) (h1 : 1 ≤ off) (hoi : off ≤ i)
      (hil : i + len ≤ chunk.length)
      (hpre : ∀ k, k < len → chunk.getD (i - off + k) 0 = chunk.getD (i + k) 0)
      (hlb : len ≤ 2 ^ (adSt i).split + 2)
      (hob : off - 1 < 2 ^ (16 - (adSt i).split))
      (h : TokStream chunk (i + len) rest) :
      TokStream chunk i
        (Token.tup (Nat.lor ((off - 1) <<< (adSt i).split) (len - 3) % 65536) :: rest)

/-- Case analysis on one compressor step: it emits either a tuple whose
length/offset satisfy the match-finder guarantees (with the length clamped to
the current split), or a literal, and advances all state components
accordingly. -/
theorem chunk_step_cases (chunk : List Nat) (ctx : Lznt1Context)
    (i blob split thr : Nat) :
    (∃ len off,
      3 ≤ len ∧ 1 ≤ off ∧ off ≤ i ∧ i + len ≤ chunk.length ∧
      (∀ k, k < len → chunk.getD (i - off + k) 0 = chunk.getD (i + k) 0) ∧
      len ≤ 2 ^ split + 2 ∧ off - 1 < 2 ^ (16 - split) ∧
      chunk_step chunk ctx i blob split thr =
        ⟨.tup (Nat.lor ((off - 1) <<< split) (len - 3) % 65536),
          ctx_update_range ctx chunk i len, i + len, blob + len,
          (comp_adaptive_update (blob + len) split thr).1,
          (comp_adaptive_update (blob + len) split thr).2⟩) ∨
    (chunk_step chunk ctx i blob split thr =
      ⟨.lit (chunk.getD i 0), ctx_update ctx chunk i, i + 1, blob + 1,
        (comp_adaptive_update (blob + 1) split thr).1,
        (comp_adaptive_update (blob + 1) split thr).2⟩) := by
  unfold chunk_step
  by_cases hm : i + 3 ≤ chunk.length
  · simp only [if_pos hm]
    set best := find_match_loop chunk ctx i (1 <<< (16 - split)) 16
      (ctx.head (hash_at chunk i)) 0 0 with hbest
    by_cases hb : 3 ≤ best.1
    · left
      have hmok : MatchOk chunk i best.1 best.2 (1 <<< (16 - split)) :=
        find_match_loop_ok chunk ctx i (1 <<< (16 - split)) 16
          (ctx.head (hash_at chunk i)) 0 0 (Or.inl (by omega)) hb
      obtain ⟨hm3, hm1, hmi, hmmax, hmlen, hmpre⟩ := hmok
      simp only [if_pos hb]
      by_cases hcl : (1 <<< split) + 2 < best.1
      · refine ⟨(1 <<< split) + 2, best.2, ?_, hm1, hmi, by omega, ?_, ?_, ?_, ?_⟩
        · have : 1 ≤ 1 <<< split := Nat.one_shiftLeft split ▸ Nat.one_le_two_pow
          omega
        · intro k hk; exact hmpre k (by omega)
        · rw [Nat.one_shiftLeft]
        · rw [Nat.one_shiftLeft] at hmmax; omega
        · simp only [if_pos hcl]
      · refine ⟨best.1, best.2, hm3, hm1, hmi, hmlen, hmpre, ?_, ?_, ?_⟩
        · rw [Nat.one_shiftLeft] at hcl; omega
        · rw [Nat.one_shiftLeft] at hmmax; omega
        · simp only [if_neg hcl]
    · right
      simp only [if_neg hb]
  · simp only [if_neg hm]
    right
    have : ¬ (3 : Nat) ≤ 0 := by omega
    simp only [if_neg this]

/-- The token stream emitted by the compressor's decision loop is valid:
starting anywhere with the loop state synchronized with the canonical
adaptive state, the emitted tokens satisfy `TokStream`. -/
theorem chunk_tokens_ok (chunk : List Nat) :
    ∀ (fuel : Nat) (ctx : Lznt1Context) (i : Nat),
      i ≤ chunk.length → chunk.length ≤ i + fuel →
      TokStream chunk i
        (chunk_tokens chunk fuel ctx i i (adSt i).split (adSt i).threshold) := by
  intro fuel
  induction fuel with
  | zero =>
    intro ctx i hle hge
    have : i = chunk.length := by omega
    subst this
    exact TokStream.nil
  | succ fuel ih =>
    intro ctx i hle hge
    by_cases hi : i < chunk.length
    · unfold chunk_tokens
      rw [if_pos hi]
      rcases chunk_step_cases chunk ctx i i (adSt i).split (adSt i).threshold with
        ⟨len, off, h3, h1, hoi, hil, hpre, hlb, hob, heq⟩ | heq
      · rw [heq]
        have hsplit : (comp_adaptive_update (i + len) (adSt i).split (adSt i).threshold) =
            ((adSt (i + len)).split, (adSt (i + len)).threshold) := by
          have e1 := comp_adaptive_update_eq (i + len) (adSt i).split
            (adSt i).threshold (adSt i).mask
          have e2 : update_adaptive_state (i + len) (adSt i) = adSt (i + len) :=
            adSt_comp (by omega)
          rw [e1]
          rw [show (⟨(adSt i).split, (adSt i).mask, (adSt i).threshold⟩ :
            AdaptiveState) = adSt i from rfl, e2]
        refine TokStream.tup i len off _ h3 h1 hoi hil hpre hlb hob ?_
        have := ih (ctx_update_range ctx chunk i len) (i + len) (by omega) (by omega)
        simpa [hsplit] using this
      · rw [heq]
        have hsplit : (comp_adaptive_update (i + 1) (adSt i).split (adSt i).threshold) =
            ((adSt (i + 1)).split, (adSt (i + 1)).threshold) := by
          have e1 := comp_adaptive_update_eq (i + 1) (adSt i).split
            (adSt i).threshold (adSt i).mask
          have e2 : update_adaptive_state (i + 1) (adSt i) = adSt (i + 1) :=
            adSt_comp (by omega)
          rw [e1]
          rw [show (⟨(adSt i).split, (adSt i).mask, (adSt i).threshold⟩ :
            AdaptiveState) = adSt i from rfl, e2]
        refine TokStream.lit i _ hi ?_
        have := ih (ctx_update ctx chunk i) (i + 1) (by omega) (by omega)
        simpa [hsplit] using this
    · unfold chunk_tokens
      rw [if_neg hi]
      have : i = chunk.length := by omega
      subst this
      exact TokStream.nil


/-! ## The tag accumulator produces the grouped byte stream -/

/-- Running the accumulator over a token list and flushing at the end
(the compressor loop's interaction with its accumulator, decisions elided). -/
def acc_finish (acc : TagAccumulator) (out : List Nat) : List Token → List Nat
  | [] => (acc_flush acc out).2
  | t :: ts => acc_finish (acc_push acc out t).1 (acc_push acc out t).2 ts

theorem encode_groups_nil : ∀ f, encode_groups f [] = [] := by
  intro f; cases f <;> rfl

theorem encode_groups_cons (f : Nat) (toks : List Token) (h : toks ≠ []) :
    encode_groups (f + 1) toks =
      (groupTag (toks.take 8) :: groupBody (toks.take 8)) ++
        encode_groups f (toks.drop 8) := by
  cases toks with
  | nil => exact absurd rfl h
  | cons t ts => rfl

theorem groupBody_append_one (g : List Token) (t : Token) :
    groupBody (g ++ [t]) = groupBody g ++ tokenBytes t := by
  induction g with
  | nil => simp [groupBody]
  | cons x g ih => simp [groupBody, ih]

theorem groupTag_lt (g : List Token) : groupTag g < 2 ^ g.length := by
  induction g with
  | nil => simp [groupTag]
  | cons t g ih =>
    have hb : (tokIsTup t).toNat ≤ 1 := by cases tokIsTup t <;> simp
    simp only [groupTag, List.length_cons, Nat.pow_succ]
    omega

theorem groupTag_append_one (g : List Token) (t : Token) :
    groupTag (g ++ [t]) = groupTag g + (tokIsTup t).toNat * 2 ^ g.length := by
  induction g with
  | nil => simp [groupTag]
  | cons x g ih =>
    show (tokIsTup x).toNat + 2 * groupTag (g ++ [t]) =
      groupTag (x :: g) + (tokIsTup t).toNat * 2 ^ (x :: g).length
    rw [ih]
    show _ = (tokIsTup x).toNat + 2 * groupTag g +
      (tokIsTup t).toNat * 2 ^ (g.length + 1)
    simp only [Nat.pow_succ]
    ring

/-- Setting a fresh bit with `|=` is addition: `a ||| (1 <<< k) = a + 2 ^ k`
when `a < 2 ^ k`. -/
theorem lor_one_shift {a k : Nat} (h : a < 2 ^ k) :
    Nat.lor a (1 <<< k) = a + 2 ^ k := by
  rw [lor_eq_or, Nat.one_shiftLeft]
  apply Nat.eq_of_testBit_eq
  intro i
  rw [Nat.testBit_lor]
  by_cases hik : i = k
  · subst hik
    rw [Nat.testBit_two_pow_self]
    have ha : a.testBit i = false := Nat.testBit_lt_two_pow h
    have hr : (a + 2 ^ i).testBit i = true := by
      rw [Nat.testBit_to_div_mod]
      have hd : (a + 2 ^ i) / 2 ^ i = 1 := by
        rw [Nat.add_div_right _ (Nat.two_pow_pos i), Nat.div_eq_of_lt h]
      simp [hd]
    simp [ha, hr]
  · have h2 : (2 ^ k).testBit i = false := Nat.testBit_two_pow_of_ne (Ne.symm hik)
    rw [h2]
    by_cases hlt : i < k
    · rw [Nat.testBit_to_div_mod, Nat.testBit_to_div_mod]
      have e : (a + 2 ^ k) / 2 ^ i = a / 2 ^ i + 2 ^ (k - i) := by
        have e1 : (2 : Nat) ^ k = 2 ^ (k - i) * 2 ^ i := by
          rw [← Nat.pow_add]; congr 1; omega
        rw [e1, Nat.add_mul_div_right _ _ (Nat.two_pow_pos i)]
      rw [e]
      have e2 : (2 : Nat) ^ (k - i) = 2 * 2 ^ (k - i - 1) := by
        rw [← Nat.pow_succ']
        congr 1
        omega
      rw [e2]
      simp [Nat.add_mul_mod_self_left]
    · have h3 : a.testBit i = false :=
        Nat.testBit_lt_two_pow
          (lt_of_lt_of_le h (Nat.pow_le_pow_right (by norm_num) (by omega)))
      have h4 : (a + 2 ^ k).testBit i = false := by
        refine Nat.testBit_lt_two_pow (lt_of_lt_of_le ?_
          (Nat.pow_le_pow_right (by norm_num) (show k + 1 ≤ i by omega)))
        have : a + 2 ^ k < 2 ^ k + 2 ^ k := by omega
        calc a + 2 ^ k < 2 ^ k + 2 ^ k := this
          _ = 2 ^ (k + 1) := by ring
      simp [h3, h4]

/-- Pushing a token onto an accumulator holding the pending tokens `pend`
yields the accumulator of `pend ++ [t]`, handed to `commit_item`. -/
theorem acc_push_eq (pend : List Token) (_h : pend.length < 8) (out : List Nat)
    (t : Token) :
    acc_push ⟨groupTag pend, pend.length, groupBody pend⟩ out t =
      acc_commit ⟨groupTag (pend ++ [t]), pend.length, groupBody (pend ++ [t])⟩
        out := by
  cases t with
  | lit b =>
    unfold acc_push acc_push_literal
    rw [groupTag_append_one, groupBody_append_one]
    simp [tokIsTup, tokenBytes]
  | tup tv =>
    unfold acc_push acc_push_tuple
    rw [groupTag_append_one, groupBody_append_one]
    have hl := lor_one_shift (groupTag_lt pend)
    simp only [tokIsTup, Bool.toNat_true, Nat.one_mul, tokenBytes]
    rw [hl]

/-- Running the accumulator from a pending state over a token list produces
the grouped byte stream of the concatenated tokens. -/
theorem acc_finish_spec :
    ∀ (toks pend : List Token) (out : List Nat) (f : Nat),
      pend.length < 8 → pend.length + toks.length ≤ 8 * f →
      acc_finish ⟨groupTag pend, pend.length, groupBody pend⟩ out toks =
        out ++ encode_groups f (pend ++ toks) := by
  intro toks
  induction toks with
  | nil =>
    intro pend out f hp hf
    show (acc_flush ⟨groupTag pend, pend.length, groupBody pend⟩ out).2 = _
    cases pend with
    | nil => simp [acc_flush, encode_groups_nil]
    | cons p ps =>
      unfold acc_flush
      rw [if_pos (by simp)]
      obtain ⟨f', rfl⟩ : ∃ f', f = f' + 1 := ⟨f - 1, by simp at hf; omega⟩
      rw [List.append_nil, encode_groups_cons f' (p :: ps) (by simp),
        List.take_of_length_le (by simp at hp ⊢; omega),
        List.drop_eq_nil_of_le (by simp at hp ⊢; omega), encode_groups_nil]
      simp
  | cons t ts ih =>
    intro pend out f hp hf
    show acc_finish (acc_push ⟨groupTag pend, pend.length, groupBody pend⟩ out t).1
      (acc_push ⟨groupTag pend, pend.length, groupBody pend⟩ out t).2 ts = _
    rw [acc_push_eq pend hp out t]
    by_cases h8 : pend.length + 1 = 8
    · have hstep : acc_commit ⟨groupTag (pend ++ [t]), pend.length,
          groupBody (pend ++ [t])⟩ out =
          (⟨0, 0, []⟩, out ++ groupTag (pend ++ [t]) :: groupBody (pend ++ [t])) := by
        unfold acc_commit acc_flush
        simp [h8]
      rw [hstep]
      show acc_finish ⟨0, 0, []⟩
        (out ++ groupTag (pend ++ [t]) :: groupBody (pend ++ [t])) ts = _
      have hchain : acc_finish ⟨0, 0, []⟩
          (out ++ groupTag (pend ++ [t]) :: groupBody (pend ++ [t])) ts =
          (out ++ groupTag (pend ++ [t]) :: groupBody (pend ++ [t])) ++
            encode_groups (f - 1) ts := by
        have h1 := ih [] (out ++ groupTag (pend ++ [t]) :: groupBody (pend ++ [t]))
          (f - 1) (by simp) (by simp at hf ⊢; omega)
        simpa [groupTag, groupBody] using h1
      rw [hchain]
      obtain ⟨f', rfl⟩ : ∃ f', f = f' + 1 := ⟨f - 1, by simp at hf; omega⟩
      have hgl : (pend ++ [t]).length = 8 := by simp; omega
      have hsp : pend ++ t :: ts = (pend ++ [t]) ++ ts := by simp
      rw [hsp, encode_groups_cons f' ((pend ++ [t]) ++ ts) (by simp),
        List.take_left' hgl, List.drop_left' hgl]
      simp
    · have hstep : acc_commit ⟨groupTag (pend ++ [t]), pend.length,
          groupBody (pend ++ [t])⟩ out =
          (⟨groupTag (pend ++ [t]), pend.length + 1, groupBody (pend ++ [t])⟩,
            out) := by
        unfold acc_commit
        simp [h8]
      rw [hstep]
      show acc_finish ⟨groupTag (pend ++ [t]), pend.length + 1,
        groupBody (pend ++ [t])⟩ out ts = _
      have hcount : (pend ++ [t]).length = pend.length + 1 := by simp
      have h1 := ih (pend ++ [t]) out f (by omega) (by simp at hf ⊢; omega)
      rw [hcount] at h1
      rw [h1]
      congr 1
      congr 1
      simp


/-- The interleaved compressor loop is the accumulator run over the decision
loop's token stream (same fuel, same decisions). -/
theorem compress_chunk_loop_eq (chunk : List Nat) :
    ∀ (fuel : Nat) (ctx : Lznt1Context) (i blob split thr : Nat)
      (acc : TagAccumulator) (out : List Nat),
      compress_chunk_loop chunk fuel ctx i blob split thr acc out =
        (acc_finish acc out (chunk_tokens chunk fuel ctx i blob split thr),
          chunk_final_ctx chunk fuel ctx i blob split thr) := by
  intro fuel
  induction fuel with
  | zero => intro ctx i blob split thr acc out; rfl
  | succ fuel ih =>
    intro ctx i blob split thr acc out
    unfold compress_chunk_loop chunk_tokens chunk_final_ctx
    by_cases hi : i < chunk.length
    · simp only [if_pos hi]
      rw [ih]
      rfl
    · simp only [if_neg hi]
      rfl

/-- The body bytes of a compressed chunk are the grouped encoding of its
token stream. -/
theorem compress_chunk_body (chunk : List Nat) (ctx : Lznt1Context) (f : Nat)
    (hf : (chunk_tokens chunk (chunk.length + 1) (ctx_reset ctx) 0 0 12 16).length ≤
      8 * f) :
    (compress_chunk chunk ctx).1 =
      encode_groups f
        (chunk_tokens chunk (chunk.length + 1) (ctx_reset ctx) 0 0 12 16) := by
  unfold compress_chunk
  rw [compress_chunk_loop_eq]
  have h := acc_finish_spec
    (chunk_tokens chunk (chunk.length + 1) (ctx_reset ctx) 0 0 12 16) [] [] f
    (by simp) (by simpa using hf)
  simpa [groupTag, groupBody, acc_init] using h


/-! ## Decoding a tag group -/

theorem land_one (x : Nat) : Nat.land x 1 = x % 2 := by
  rw [land_eq_and]
  simp

/-- Bit `k` of a group's tag byte is the tuple flag of token `k`. -/
theorem groupTag_bit :
    ∀ (g : List Token) (k : Nat), k < g.length →
      (Nat.land (groupTag g >>> k) 1 ≠ 0 ↔
        tokIsTup (g.getD k (Token.lit 0)) = true) := by
  intro g
  induction g with
  | nil => intro k h; simp at h
  | cons t ts ih =>
    intro k h
    cases k with
    | zero =>
      rw [land_one, Nat.shiftRight_zero]
      show ((tokIsTup t).toNat + 2 * groupTag ts) % 2 ≠ 0 ↔ tokIsTup t = true
      rw [Nat.add_mul_mod_self_left]
      cases tokIsTup t <;> simp
    | succ k =>
      rw [land_one]
      have e1 : groupTag (t :: ts) >>> (k + 1) = groupTag ts >>> k := by
        rw [Nat.shiftRight_eq_div_pow, Nat.shiftRight_eq_div_pow]
        show ((tokIsTup t).toNat + 2 * groupTag ts) / 2 ^ (k + 1) = _
        rw [Nat.pow_succ', ← Nat.div_div_eq_div_mul]
        congr 1
        have hb : (tokIsTup t).toNat < 2 := by cases tokIsTup t <;> simp
        rw [Nat.add_mul_div_left _ _ (by norm_num : (0:Nat) < 2)]
        simp [Nat.div_eq_of_lt hb]
      rw [e1, ← land_one]
      have := ih k (by simpa using h)
      simpa using this

theorem groupTag_zero_of_lits :
    ∀ (g : List Token), (∀ t ∈ g, tokIsTup t = false) → groupTag g = 0 := by
  intro g
  induction g with
  | nil => intro _; rfl
  | cons t ts ih =>
    intro h
    show (tokIsTup t).toNat + 2 * groupTag ts = 0
    rw [h t (by simp), ih (fun t ht => h t (by simp [ht]))]
    rfl

theorem groupTag_ne_zero_of_tup {g : List Token} {k : Nat} (hk : k < g.length)
    (ht : tokIsTup (g.getD k (Token.lit 0)) = true) : groupTag g ≠ 0 := by
  intro h0
  have := (groupTag_bit g k hk).mpr ht
  rw [h0] at this
  simp [Nat.zero_shiftRight] at this
  exact this rfl

theorem tokenBytes_ne_nil (t : Token) : tokenBytes t ≠ [] := by
  cases t <;> simp [tokenBytes]

theorem groupBody_eq_nil {g : List Token} (h : groupBody g = []) : g = [] := by
  cases g with
  | nil => rfl
  | cons t ts =>
    exfalso
    have : tokenBytes t ++ groupBody ts = [] := h
    rcases List.append_eq_nil.mp this with ⟨h1, _⟩
    exact tokenBytes_ne_nil t h1

theorem encode_groups_eq_nil {toks : List Token} {f : Nat} (hf : 1 ≤ f)
    (h : encode_groups f toks = []) : toks = [] := by
  cases toks with
  | nil => rfl
  | cons t ts =>
    obtain ⟨f', rfl⟩ : ∃ f', f = f' + 1 := ⟨f - 1, by omega⟩
    simp [encode_groups] at h

/-- The bytes of an all-literal group are one chunk byte per token; decoding
them by plain copy reproduces the next `g.length` chunk bytes. -/
theorem lits_decode (chunk : List Nat) :
    ∀ (g : List Token) (i : Nat) (rest : List Token) (prev : List Nat),
      (∀ t ∈ g, tokIsTup t = false) →
      TokStream chunk i (g ++ rest) →
      (prev ++ chunk.take i) ++ groupBody g =
          prev ++ chunk.take (i + g.length) ∧
        TokStream chunk (i + g.length) rest ∧
        (groupBody g).length = g.length := by
  intro g
  induction g with
  | nil => intro i rest prev _ hts; simpa [groupBody] using hts
  | cons t ts ih =>
    intro i rest prev hlit hts
    have hlit0 : tokIsTup t = false := hlit t (by simp)
    rw [List.cons_append] at hts
    cases hts with
    | lit i rest' hi hts' =>
      obtain ⟨e1, e2, e3⟩ := ih (i + 1) rest prev (fun u hu => hlit u (by simp [hu])) hts'
      refine ⟨?_, ?_, ?_⟩
      · show (prev ++ chunk.take i) ++ (chunk.getD i 0 :: groupBody ts) = _
        calc (prev ++ chunk.take i) ++ (chunk.getD i 0 :: groupBody ts)
            = ((prev ++ chunk.take i) ++ [chunk.getD i 0]) ++ groupBody ts := by
              simp
          _ = (prev ++ chunk.take (i + 1)) ++ groupBody ts := by
              rw [List.append_assoc prev, ← take_succ_getD hi]
          _ = prev ++ chunk.take (i + 1 + ts.length) := e1
          _ = prev ++ chunk.take (i + (Token.lit (chunk.getD i 0) :: ts).length) := by
              congr 2
              simp
              omega
      · show TokStream chunk (i + (ts.length + 1)) rest
        have e : i + 1 + ts.length = i + (ts.length + 1) := by omega
        exact e ▸ e2
      · show (chunk.getD i 0 :: groupBody ts).length = ts.length + 1
        simp [e3]
    | tup i len off rest' h3 h1 hoi hil hpre hlb hob hts' =>
      simp [tokIsTup] at hlit0


/-- A token stream position never exceeds the chunk length. -/
theorem ts_le {chunk : List Nat} {i : Nat} {toks : List Token}
    (h : TokStream chunk i toks) : i ≤ chunk.length := by
  cases h with
  | nil => exact Nat.le_refl _
  | lit i rest hi _ => omega
  | tup i len off rest h3 h1 hoi hil _ _ _ _ => omega

/-- An empty token stream sits exactly at the chunk end. -/
theorem ts_nil {chunk : List Nat} {m : Nat} (h : TokStream chunk m []) :
    m = chunk.length := by
  cases h
  rfl

/-- Step equation: a literal item with at least one body byte left. -/
theorem tgl_lit (tag k j b : Nat) (rest' out : List Nat) (sl : Nat)
    (st : AdaptiveState) (hbit : Nat.land (tag >>> j) 1 = 0) :
    tag_group_loop tag (k + 1) j (b :: rest') out sl st =
      (if rest' = [] then .done (out ++ [b])
       else tag_group_loop tag k (j + 1) rest' (out ++ [b]) sl
         (update_adaptive_state ((out ++ [b]).length - sl) st)) := by
  show (if Nat.land (tag >>> j) 1 ≠ 0 then _ else _) = _
  rw [if_neg (by simp [hbit])]

/-- Step equation: a literal item at the end of the body (tolerant EOF). -/
theorem tgl_lit_nil (tag k j : Nat) (out : List Nat) (sl : Nat)
    (st : AdaptiveState) (hbit : Nat.land (tag >>> j) 1 = 0) :
    tag_group_loop tag (k + 1) j [] out sl st = .done out := by
  show (if Nat.land (tag >>> j) 1 ≠ 0 then _ else _) = _
  rw [if_neg (by simp [hbit])]

/-- Step equation: a back-reference item whose match succeeds. -/
theorem tgl_link_ok (tag k j b0 b1 : Nat) (rest' out : List Nat) (sl : Nat)
    (st : AdaptiveState) (out' : List Nat)
    (hbit : Nat.land (tag >>> j) 1 ≠ 0)
    (happ : apply_match out (Nat.land (b0 + 256 * b1) st.mask + 3)
      (((b0 + 256 * b1) >>> st.split) + 1) = (out', none)) :
    tag_group_loop tag (k + 1) j (b0 :: b1 :: rest') out sl st =
      (if rest' = [] then .done out'
       else tag_group_loop tag k (j + 1) rest' out' sl
         (update_adaptive_state (out'.length - sl) st)) := by
  show (if Nat.land (tag >>> j) 1 ≠ 0 then _ else _) = _
  rw [if_pos hbit]
  show (match apply_match out (Nat.land (b0 + 256 * b1) st.mask + 3)
      (((b0 + 256 * b1) >>> st.split) + 1) with
    | (o, some e) => GroupResult.err o e
    | (o, none) =>
      if rest' = [] then GroupResult.done o
      else tag_group_loop tag k (j + 1) rest' o sl
        (update_adaptive_state (o.length - sl) st)) = _
  rw [happ]


/-- Decoding one tag group: processing the remaining tokens `g` of the current
group (items `j, j+1, ...` of at most 8), with the output so far being
`prev ++ chunk.take i` and the adaptive state canonical, either ends the block
successfully exactly at the chunk end (when no further groups follow), or
falls through to the next group with everything advanced consistently. -/
theorem tag_group_decode (chunk : List Nat) :
    ∀ (g : List Token) (j i : Nat) (tag : Nat) (rest : List Token)
      (prev : List Nat) (f : Nat),
      TokStream chunk i (g ++ rest) →
      j + g.length ≤ 8 →
      (g = [] → j = 8) →
      (rest ≠ [] → j + g.length = 8) →
      rest.length ≤ 8 * f →
      (∀ k, k < g.length → (Nat.land (tag >>> (j + k)) 1 ≠ 0 ↔
        tokIsTup (g.getD k (Token.lit 0)) = true)) →
      ((rest = [] → g ≠ [] →
        tag_group_loop tag (8 - j) j (groupBody g ++ encode_groups f rest)
          (prev ++ chunk.take i) prev.length (adSt i) = .done (prev ++ chunk)) ∧
       (rest ≠ [] →
        ∃ i', TokStream chunk i' rest ∧
          tag_group_loop tag (8 - j) j (groupBody g ++ encode_groups f rest)
            (prev ++ chunk.take i) prev.length (adSt i) =
            .next (encode_groups f rest) (prev ++ chunk.take i') (adSt i'))) := by
  intro g
  induction g with
  | nil =>
    intro j i tag rest prev f hts hle hempty hfull hf hbits
    constructor
    · intro _ hg
      exact absurd rfl hg
    · intro hrest
      have hj : j = 8 := hempty rfl
      subst hj
      refine ⟨i, by simpa using hts, ?_⟩
      show tag_group_loop tag 0 8 (groupBody [] ++ encode_groups f rest) _ _ _ = _
      simp only [groupBody, List.nil_append]
      rfl
  | cons t g' ih =>
    intro j i tag rest prev f hts hle hempty hfull hf hbits
    have hj8 : j < 8 := by simp at hle; omega
    obtain ⟨k', hk'⟩ : ∃ k', 8 - j = k' + 1 := ⟨8 - (j + 1), by omega⟩
    have hk'' : k' = 8 - (j + 1) := by omega
    rw [List.cons_append] at hts
    have hbit0 := hbits 0 (by simp)
    rw [Nat.add_zero] at hbit0
    -- common facts for the post-item continuation
    have hnextbits : ∀ k, k < g'.length →
        (Nat.land (tag >>> (j + 1 + k)) 1 ≠ 0 ↔
          tokIsTup (g'.getD k (Token.lit 0)) = true) := by
      intro k hk
      have := hbits (k + 1) (by simp; omega)
      have e : j + (k + 1) = j + 1 + k := by omega
      rw [e] at this
      simpa using this
    cases hts with
    | lit _ rest2 hi hts' =>
      have hbitf : Nat.land (tag >>> j) 1 = 0 := by
        by_contra hne
        have := hbit0.mp hne
        simp [tokIsTup] at this
      have hbody : groupBody (Token.lit (chunk.getD i 0) :: g') ++
          encode_groups f rest =
          chunk.getD i 0 :: (groupBody g' ++ encode_groups f rest) := by
        simp [groupBody, tokenBytes]
      rw [hk', hbody, tgl_lit tag k' j (chunk.getD i 0)
        (groupBody g' ++ encode_groups f rest) (prev ++ chunk.take i)
        prev.length (adSt i) hbitf]
      have hout : (prev ++ chunk.take i) ++ [chunk.getD i 0] =
          prev ++ chunk.take (i + 1) := by
        rw [List.append_assoc, ← take_succ_getD hi]
      have hlen : ((prev ++ chunk.take i) ++ [chunk.getD i 0]).length -
          prev.length = i + 1 := by
        simp [List.length_take]
        omega
      have hst : update_adaptive_state (((prev ++ chunk.take i) ++
          [chunk.getD i 0]).length - prev.length) (adSt i) = adSt (i + 1) := by
        rw [hlen]
        exact adSt_comp (by omega)
      by_cases hre : groupBody g' ++ encode_groups f rest = []
      · rw [if_pos hre, hout]
        rcases List.append_eq_nil.mp hre with ⟨hg', hE⟩
        have hg'nil : g' = [] := groupBody_eq_nil hg'
        have hrestnil : rest = [] := by
          by_contra hr
          have hf1 : 1 ≤ f := by
            have : 1 ≤ rest.length := by
              cases rest with
              | nil => exact absurd rfl hr
              | cons a l => simp
            omega
          exact hr (encode_groups_eq_nil hf1 hE)
        subst hg'nil hrestnil
        constructor
        · intro _ _
          have him : i + 1 = chunk.length := ts_nil (by simpa using hts')
          rw [him, List.take_length]
        · intro hr
          exact absurd rfl hr
      · rw [if_neg hre, hst, hout, hk'']
        have ihres := ih (j + 1) (i + 1) tag rest prev f hts'
          (by simp at hle; omega)
          (by intro hg'; subst hg'; simp only [groupBody, List.nil_append] at hre
              have hrne : rest ≠ [] := by
                intro hc; subst hc; exact hre (encode_groups_nil f)
              have := hfull hrne
              simp at this
              omega)
          (by intro hr; have := hfull hr; simp at this; omega)
          hf hnextbits
        constructor
        · intro hr _
          refine ihres.1 hr ?_
          intro hg'
          subst hg'
          subst hr
          simp only [groupBody, List.nil_append] at hre
          exact hre (encode_groups_nil f)
        · exact ihres.2
    | tup _ len off rest2 h3 h1 hoi hil hpre hlb hob hts' =>
      have hbitt : Nat.land (tag >>> j) 1 ≠ 0 := by
        rw [hbit0]
        simp [tokIsTup]
      have hsp16 : (adSt i).split ≤ 16 := le_trans (adSt_split_le i) (by norm_num)
      have hlm3 : len - 3 < 2 ^ (adSt i).split := by
        have := Nat.two_pow_pos (adSt i).split
        omega
      have hX : ((off - 1) <<< (adSt i).split) ||| (len - 3) < 65536 :=
        pack_lt_u16 hsp16 hob hlm3
      have htv : Nat.lor ((off - 1) <<< (adSt i).split) (len - 3) % 65536 =
          ((off - 1) <<< (adSt i).split) ||| (len - 3) := by
        rw [lor_eq_or]
        exact Nat.mod_eq_of_lt hX
      set X := ((off - 1) <<< (adSt i).split) ||| (len - 3) with hXdef
      have hbody : groupBody (Token.tup (Nat.lor ((off - 1) <<<
          (adSt i).split) (len - 3) % 65536) :: g') ++ encode_groups f rest =
          X % 256 :: (X / 256 % 256 :: (groupBody g' ++ encode_groups f rest)) := by
        simp only [groupBody, tokenBytes, htv, List.cons_append, List.nil_append,
          List.append_assoc]
      have hrecon : X % 256 + 256 * (X / 256 % 256) = X := u16_le_roundtrip hX
      have hlen_eq : Nat.land X (adSt i).mask + 3 = len := by
        rw [adSt_mask, land_eq_and, Nat.and_pow_two_sub_one_eq_mod,
          pack_mod hlm3]
        omega
      have hoff_eq : (X >>> (adSt i).split) + 1 = off := by
        rw [pack_shift hlm3]
        omega
      have happ := apply_match_ok chunk prev h1 hoi hil hpre
      have happ2 : apply_match (prev ++ chunk.take i)
          (Nat.land (X % 256 + 256 * (X / 256 % 256)) (adSt i).mask + 3)
          (((X % 256 + 256 * (X / 256 % 256)) >>> (adSt i).split) + 1) =
          (prev ++ chunk.take (i + len), none) := by
        rw [hrecon, hlen_eq, hoff_eq]
        exact happ
      rw [hk', hbody, tgl_link_ok tag k' j (X % 256) (X / 256 % 256)
        (groupBody g' ++ encode_groups f rest) (prev ++ chunk.take i)
        prev.length (adSt i) (prev ++ chunk.take (i + len)) hbitt happ2]
      have hlen2 : (prev ++ chunk.take (i + len)).length - prev.length =
          i + len := by
        simp [List.length_take]
        omega
      have hst : update_adaptive_state ((prev ++ chunk.take (i + len)).length -
          prev.length) (adSt i) = adSt (i + len) := by
        rw [hlen2]
        exact adSt_comp (by omega)
      by_cases hre : groupBody g' ++ encode_groups f rest = []
      · rw [if_pos hre]
        rcases List.append_eq_nil.mp hre with ⟨hg', hE⟩
        have hg'nil : g' = [] := groupBody_eq_nil hg'
        have hrestnil : rest = [] := by
          by_contra hr
          have hf1 : 1 ≤ f := by
            have : 1 ≤ rest.length := by
              cases rest with
              | nil => exact absurd rfl hr
              | cons a l => simp
            omega
          exact hr (encode_groups_eq_nil hf1 hE)
        subst hg'nil hrestnil
        constructor
        · intro _ _
          have him : i + len = chunk.length := ts_nil (by simpa using hts')
          rw [him, List.take_length]
        · intro hr
          exact absurd rfl hr
      · rw [if_neg hre, hst, hk'']
        have ihres := ih (j + 1) (i + len) tag rest prev f hts'
          (by simp at hle; omega)
          (by intro hg'; subst hg'; simp only [groupBody, List.nil_append] at hre
              have hrne : rest ≠ [] := by
                intro hc; subst hc; exact hre (encode_groups_nil f)
              have := hfull hrne
              simp at this
              omega)
          (by intro hr; have := hfull hr; simp at this; omega)
          hf hnextbits
        constructor
        · intro hr _
          refine ihres.1 hr ?_
          intro hg'
          subst hg'
          subst hr
          simp only [groupBody, List.nil_append] at hre
          exact hre (encode_groups_nil f)
        · exact ihres.2


/-! ## Decoding a whole compressed block -/

/-- Step equation of the block loop on a non-empty body. -/
theorem bl_cons (fuel tagB : Nat) (rest0 out : List Nat) (sl : Nat)
    (st : AdaptiveState) :
    block_loop (fuel + 1) (tagB :: rest0) out sl st =
      (if tagB = 0 ∧ 8 ≤ rest0.length then
        block_loop fuel (rest0.drop 8) (out ++ rest0.take 8) sl
          (update_adaptive_state ((out ++ rest0.take 8).length - sl) st)
      else
        match tag_group_loop tagB 8 0 rest0 out sl st with
        | .err out' e => (out', some e)
        | .done out' => (out', none)
        | .next rem' out' st' => block_loop fuel rem' out' sl st') := rfl

/-- Decoding the grouped encoding of a valid token stream appends exactly the
rest of the chunk and succeeds. -/
theorem block_decode (chunk : List Nat) :
    ∀ (fuel : Nat) (toks : List Token) (i : Nat) (prev : List Nat) (f : Nat),
      TokStream chunk i toks →
      toks.length ≤ 8 * f →
      (encode_groups f toks).length < fuel →
      block_loop fuel (encode_groups f toks) (prev ++ chunk.take i)
        prev.length (adSt i) = (prev ++ chunk, none) := by
  intro fuel
  induction fuel with
  | zero => intro toks i prev f _ _ hlt; omega
  | succ fuel ih =>
    intro toks i prev f hts hlen hlt
    cases toks with
    | nil =>
      rw [encode_groups_nil]
      have hi : i = chunk.length := ts_nil hts
      subst hi
      show (prev ++ chunk.take chunk.length, none) = _
      rw [List.take_length]
    | cons t ts =>
      obtain ⟨f', rfl⟩ : ∃ f', f = f' + 1 := ⟨f - 1, by simp at hlen; omega⟩
      rw [encode_groups_cons f' (t :: ts) (by simp)] at hlt ⊢
      set g := (t :: ts).take 8 with hg
      set rest := (t :: ts).drop 8 with hrest
      have hgr : g ++ rest = t :: ts := List.take_append_drop 8 (t :: ts)
      have hgne : g ≠ [] := by rw [hg]; simp
      have hglen : g.length ≤ 8 := by rw [hg]; simp
      have hrlen : rest.length ≤ 8 * f' := by rw [hrest]; simp at hlen ⊢; omega
      have hts2 : TokStream chunk i (g ++ rest) := by rw [hgr]; exact hts
      have hfullg : rest ≠ [] → g.length = 8 := by
        intro hr
        have h8 : 8 < (t :: ts).length := by
          by_contra hc
          exact hr (by rw [hrest]; exact List.drop_eq_nil_of_le (by omega))
        rw [hg, List.length_take]
        omega
      have hcons : (groupTag g :: groupBody g) ++ encode_groups f' rest =
          groupTag g :: (groupBody g ++ encode_groups f' rest) := by simp
      rw [hcons, bl_cons]
      by_cases hall : (∀ u ∈ g, tokIsTup u = false) ∧ g.length = 8
      · -- all-literals fast path
        obtain ⟨hlits, hg8⟩ := hall
        have htag0 : groupTag g = 0 := groupTag_zero_of_lits g hlits
        obtain ⟨hdec, hts3, hblen⟩ := lits_decode chunk g i rest prev hlits hts2
        have hblen8 : (groupBody g).length = 8 := by rw [hblen, hg8]
        rw [if_pos ⟨htag0, by simp [hblen8]⟩,
          List.take_left' hblen8, List.drop_left' hblen8, hdec]
        have hlen2 : (prev ++ chunk.take (i + g.length)).length - prev.length =
            i + g.length := by
          have := ts_le hts3
          simp [List.length_take]
          omega
        rw [hlen2, show update_adaptive_state (i + g.length) (adSt i) =
          adSt (i + g.length) from adSt_comp (by omega)]
        rw [hg8] at hts3 ⊢
        refine ih rest (i + 8) prev f' hts3 hrlen ?_
        simp at hlt
        omega
      · -- mixed path
        have hcond : ¬ (groupTag g = 0 ∧
            8 ≤ (groupBody g ++ encode_groups f' rest).length) := by
          intro ⟨htag0, hge8⟩
          by_cases hlits : ∀ u ∈ g, tokIsTup u = false
          · -- then the group is not full, so rest = [] and the body is short
            have hg8 : g.length ≠ 8 := fun h8 => hall ⟨hlits, h8⟩
            have hrnil : rest = [] := by
              by_contra hr
              exact hg8 (hfullg hr)
            obtain ⟨-, -, hblen⟩ := lits_decode chunk g i rest prev hlits hts2
            rw [hrnil, encode_groups_nil, List.append_nil, hblen] at hge8
            omega
          · push_neg at hlits
            obtain ⟨u, hu, hut⟩ := hlits
            obtain ⟨k, hk, hku⟩ := List.mem_iff_getElem.mp hu
            have : tokIsTup (g.getD k (Token.lit 0)) = true := by
              rw [List.getD_eq_getElem g (Token.lit 0) hk, hku]
              simpa using hut
            exact groupTag_ne_zero_of_tup hk this htag0
        rw [if_neg hcond]
        have hbits : ∀ k, k < g.length →
            (Nat.land (groupTag g >>> (0 + k)) 1 ≠ 0 ↔
              tokIsTup (g.getD k (Token.lit 0)) = true) := by
          intro k hk
          rw [Nat.zero_add]
          exact groupTag_bit g k hk
        have hF2 := tag_group_decode chunk g 0 i (groupTag g) rest prev f'
          hts2 (by omega) (fun hgnil => absurd hgnil hgne) (fun hr => by
            have := hfullg hr; omega) hrlen hbits
        by_cases hr : rest = []
        · have hdone := hF2.1 hr hgne
          rw [show (8 : Nat) = 8 - 0 from rfl, hdone]
        · obtain ⟨i', hts', heq⟩ := hF2.2 hr
          rw [show (8 : Nat) = 8 - 0 from rfl, heq]
          refine ih rest i' prev f' hts' hrlen ?_
          simp at hlt
          omega


/-! ## Top-level stream round trip -/

/-- Step equation of the top-level decompress loop on two or more bytes. -/
theorem dl_cons (fuel b0 b1 : Nat) (rest out : List Nat) :
    decompress_loop (fuel + 1) (b0 :: b1 :: rest) out =
      (if b0 + 256 * b1 = 0 then (out, none)
       else if rest.length < Nat.land (b0 + 256 * b1) 0x0FFF + 1 then
         (out, some .inputTooShort)
       else
         match (if Nat.land (b0 + 256 * b1) 0x8000 ≠ 0 then
             decompress_compressed_block
               (rest.take (Nat.land (b0 + 256 * b1) 0x0FFF + 1)) out
           else (out ++ rest.take (Nat.land (b0 + 256 * b1) 0x0FFF + 1), none)) with
         | (out', some e) => (out', some e)
         | (out', none) =>
           decompress_loop fuel
             (rest.drop (Nat.land (b0 + 256 * b1) 0x0FFF + 1)) out') := rfl

/-- A non-empty chunk produces at least one token. -/
theorem chunk_tokens_ne_nil (chunk : List Nat) (ctx : Lznt1Context)
    (h : 0 < chunk.length) :
    chunk_tokens chunk (chunk.length + 1) ctx 0 0 12 16 ≠ [] := by
  show (if 0 < chunk.length then _ else _) ≠ _
  rw [if_pos h]
  simp


/-- Decoding the byte stream produced by the compress loop from any chunk
boundary appends exactly the remaining input and succeeds. -/
theorem stream_decode (input : List Nat) :
    ∀ (fuelc pos : Nat) (ctx : Lznt1Context) (prev : List Nat) (fueld : Nat),
      input.length ≤ pos + fuelc →
      (compress_loop input fuelc pos ctx).length < fueld →
      decompress_loop fueld (compress_loop input fuelc pos ctx) prev =
        (prev ++ input.drop pos, none) := by
  intro fuelc
  induction fuelc with
  | zero =>
    intro pos ctx prev fueld hpos hlt
    obtain ⟨d, rfl⟩ : ∃ d, fueld = d + 1 := ⟨fueld - 1, by omega⟩
    show (prev, none) = _
    rw [List.drop_eq_nil_of_le (by omega), List.append_nil]
  | succ fuelc ih =>
    intro pos ctx prev fueld hpos hlt
    by_cases hs : pos < input.length
    swap
    · have hnil : compress_loop input (fuelc + 1) pos ctx = [] := by
        show (if pos < input.length then _ else _) = _
        rw [if_neg hs]
      rw [hnil] at hlt ⊢
      obtain ⟨d, rfl⟩ : ∃ d, fueld = d + 1 := ⟨fueld - 1, by omega⟩
      show (prev, none) = _
      rw [List.drop_eq_nil_of_le (by omega), List.append_nil]
    set clen := min (input.length - pos) 4096 with hclen
    set chunk := (input.drop pos).take clen with hchunk
    set res := compress_chunk chunk ctx with hres
    have hloop : compress_loop input (fuelc + 1) pos ctx =
        (if res.1.length < chunk.length then
          u16le (encode_header 0xB000 res.1.length) ++ res.1
        else
          u16le (encode_header 0x3000 chunk.length) ++ chunk) ++
          compress_loop input fuelc (pos + clen) res.2 := by
      show (if pos < input.length then _ else _) = _
      rw [if_pos hs]
    set R := compress_loop input fuelc (pos + clen) res.2 with hR
    have hclen1 : 1 ≤ clen := by
      rw [hclen]
      have : 1 ≤ input.length - pos := by omega
      omega
    have hclen4096 : clen ≤ 4096 := by rw [hclen]; omega
    have hchlen : chunk.length = clen := by
      rw [hchunk, List.length_take, List.length_drop]
      rw [hclen]
      omega
    have hdropstep : chunk ++ input.drop (pos + clen) = input.drop pos := by
      rw [hchunk, ← List.drop_drop clen pos input]
      exact List.take_append_drop clen (input.drop pos)
    by_cases hcomp : res.1.length < chunk.length
    · -- compressed chunk
      rw [if_pos hcomp] at hloop
      set toks := chunk_tokens chunk (chunk.length + 1) (ctx_reset ctx) 0 0 12 16
        with htoks
      have htoksne : toks ≠ [] :=
        chunk_tokens_ne_nil chunk (ctx_reset ctx) (by omega)
      set f := toks.length with hf
      have hf1 : 1 ≤ f := List.length_pos.mpr htoksne
      have hbody : res.1 = encode_groups f toks :=
        compress_chunk_body chunk ctx f (by rw [← htoks]; omega)
      have hblen1 : 1 ≤ res.1.length := by
        rw [hbody]
        refine List.length_pos.mpr ?_
        intro hc
        exact htoksne (encode_groups_eq_nil hf1 hc)
      have hblen4096 : res.1.length ≤ 4096 := by omega
      have hheq : encode_header 0xB000 res.1.length =
          (0xB000 : Nat) ||| (res.1.length - 1) :=
        encode_header_eq 0xB000 hblen1 hblen4096
      have hx4096 : res.1.length - 1 < 4096 := by omega
      have hx2pow : res.1.length - 1 < 2 ^ 12 :=
        lt_of_lt_of_le hx4096 (by norm_num)
      have hhlt : encode_header 0xB000 res.1.length < 65536 := by
        rw [hheq, show (0xB000 : Nat) = 11 <<< 12 from by decide]
        exact pack_lt_u16 (by norm_num) (by norm_num) hx2pow
      have hstream : compress_loop input (fuelc + 1) pos ctx =
          encode_header 0xB000 res.1.length % 256 ::
            (encode_header 0xB000 res.1.length / 256 % 256 :: (res.1 ++ R)) := by
        rw [hloop]
        simp [u16le]
      rw [hstream] at hlt ⊢
      obtain ⟨d, rfl⟩ : ∃ d, fueld = d + 1 := ⟨fueld - 1, by omega⟩
      rw [dl_cons]
      rw [u16_le_roundtrip hhlt]
      have hne0 : encode_header 0xB000 res.1.length ≠ 0 := by
        rw [hheq]
        exact header_ne_zero (by decide)
      rw [if_neg hne0]
      have hsize : Nat.land (encode_header 0xB000 res.1.length) 0x0FFF + 1 =
          res.1.length := by
        rw [hheq, show (0xB000 : Nat) = 11 <<< 12 from by decide,
          land_fff_pack hx4096]
        omega
      rw [hsize]
      rw [if_neg (by simp)]
      have hisc : Nat.land (encode_header 0xB000 res.1.length) 0x8000 ≠ 0 := by
        rw [land_8000_eq, hheq, testBit15_comp]
        norm_num
      rw [if_pos hisc]
      have htake : (res.1 ++ R).take res.1.length = res.1 := List.take_left' rfl
      have hdrop : (res.1 ++ R).drop res.1.length = R := List.drop_left' rfl
      rw [htake, hdrop]
      have hts : TokStream chunk 0 toks :=
        chunk_tokens_ok chunk (chunk.length + 1) (ctx_reset ctx) 0
          (by omega) (by omega)
      have hbd := block_decode chunk ((encode_groups f toks).length + 1) toks 0
        prev f hts (by omega) (by omega)
      have hdcb : decompress_compressed_block res.1 prev =
          (prev ++ chunk, none) := by
        show block_loop (res.1.length + 1) res.1 prev prev.length initAdaptive = _
        rw [hbody]
        have e0 : prev ++ chunk.take 0 = prev := by simp
        rw [e0] at hbd
        exact hbd
      rw [hdcb]
      show decompress_loop d R (prev ++ chunk) = _
      have hrec := ih (pos + clen) res.2 (prev ++ chunk) d (by omega)
        (by rw [← hR]; simp only [List.length_cons, List.length_append] at hlt
            omega)
      rw [hrec, List.append_assoc, hdropstep]
    · -- raw chunk
      rw [if_neg hcomp] at hloop
      have hheq : encode_header 0x3000 chunk.length =
          (0x3000 : Nat) ||| (chunk.length - 1) :=
        encode_header_eq 0x3000 (by omega) (by omega)
      have hx4096 : chunk.length - 1 < 4096 := by omega
      have hx2pow : chunk.length - 1 < 2 ^ 12 :=
        lt_of_lt_of_le hx4096 (by norm_num)
      have hhlt : encode_header 0x3000 chunk.length < 65536 := by
        rw [hheq, show (0x3000 : Nat) = 3 <<< 12 from by decide]
        exact pack_lt_u16 (by norm_num) (by norm_num) hx2pow
      have hstream : compress_loop input (fuelc + 1) pos ctx =
          encode_header 0x3000 chunk.length % 256 ::
            (encode_header 0x3000 chunk.length / 256 % 256 :: (chunk ++ R)) := by
        rw [hloop]
        simp [u16le]
      rw [hstream] at hlt ⊢
      obtain ⟨d, rfl⟩ : ∃ d, fueld = d + 1 := ⟨fueld - 1, by omega⟩
      rw [dl_cons]
      rw [u16_le_roundtrip hhlt]
      have hne0 : encode_header 0x3000 chunk.length ≠ 0 := by
        rw [hheq]
        exact header_ne_zero (by decide)
      rw [if_neg hne0]
      have hsize : Nat.land (encode_header 0x3000 chunk.length) 0x0FFF + 1 =
          chunk.length := by
        rw [hheq, show (0x3000 : Nat) = 3 <<< 12 from by decide,
          land_fff_pack hx4096]
        omega
      rw [hsize]
      rw [if_neg (by simp)]
      have hisc : ¬ Nat.land (encode_header 0x3000 chunk.length) 0x8000 ≠ 0 := by
        rw [land_8000_eq, hheq, testBit15_raw hx4096]
        norm_num
      rw [if_neg hisc]
      have htake : (chunk ++ R).take chunk.length = chunk := List.take_left' rfl
      have hdrop : (chunk ++ R).drop chunk.length = R := List.drop_left' rfl
      rw [htake, hdrop]
      show decompress_loop d R (prev ++ chunk) = _
      have hrec := ih (pos + clen) res.2 (prev ++ chunk) d (by omega)
        (by rw [← hR]; simp only [List.length_cons, List.length_append] at hlt
            omega)
      rw [hrec, List.append_assoc, hdropstep]


/-! ## Claim theorems -/

/-- C1: For every byte sequence `x` (indeed for every list of naturals) and
initially empty output buffers, `compress` followed by `decompress` succeeds
and reproduces `x` exactly. -/
theorem C1_roundtrip (x : List Nat) : decompress (compress x []) [] = (x, none) := by
  show decompress_loop ((compress x []).length + 1) (compress x []) [] = _
  have hc : compress x [] = compress_loop x (x.length + 1) 0 ctx_new := by
    show [] ++ _ = _
    exact List.nil_append _
  rw [hc]
  have h := stream_decode x (x.length + 1) 0 ctx_new []
    ((compress_loop x (x.length + 1) 0 ctx_new).length + 1) (by omega) (by omega)
  rw [h]
  simp


/-- C5: starting from `(split = 12, threshold = 16)`, the adaptive update as a
function of the running in-chunk byte count `n` changes the split exactly at
`n = 17, 33, 65, 129, 257, 513, 1025, 2049` (to 11 … 4), is non-increasing,
and the compressor-side update computes the same split and threshold as the
decompressor-side `update_adaptive_state`. -/
theorem C5_adaptive_split :
    (∀ n, n ≤ 16 → adSt n = ⟨12, 4095, 16⟩) ∧
    (∀ n, 17 ≤ n → n ≤ 32 → adSt n = ⟨11, 2047, 32⟩) ∧
    (∀ n, 33 ≤ n → n ≤ 64 → adSt n = ⟨10, 1023, 64⟩) ∧
    (∀ n, 65 ≤ n → n ≤ 128 → adSt n = ⟨9, 511, 128⟩) ∧
    (∀ n, 129 ≤ n → n ≤ 256 → adSt n = ⟨8, 255, 256⟩) ∧
    (∀ n, 257 ≤ n → n ≤ 512 → adSt n = ⟨7, 127, 512⟩) ∧
    (∀ n, 513 ≤ n → n ≤ 1024 → adSt n = ⟨6, 63, 1024⟩) ∧
    (∀ n, 1025 ≤ n → n ≤ 2048 → adSt n = ⟨5, 31, 2048⟩) ∧
    (∀ n, 2049 ≤ n → n ≤ 4096 → adSt n = ⟨4, 15, 4096⟩) ∧
    (∀ n₁ n₂, n₁ ≤ n₂ → (adSt n₂).split ≤ (adSt n₁).split) ∧
    (∀ n split threshold mask,
      comp_adaptive_update n split threshold =
        ((update_adaptive_state n ⟨split, mask, threshold⟩).split,
          (update_adaptive_state n ⟨split, mask, threshold⟩).threshold)) :=
  ⟨fun n h => (adSt_table n).1 h,
    fun n h1 h2 => (adSt_table n).2.1 h1 h2,
    fun n h1 h2 => (adSt_table n).2.2.1 h1 h2,
    fun n h1 h2 => (adSt_table n).2.2.2.1 h1 h2,
    fun n h1 h2 => (adSt_table n).2.2.2.2.1 h1 h2,
    fun n h1 h2 => (adSt_table n).2.2.2.2.2.1 h1 h2,
    fun n h1 h2 => (adSt_table n).2.2.2.2.2.2.1 h1 h2,
    fun n h1 h2 => (adSt_table n).2.2.2.2.2.2.2.1 h1 h2,
    fun n h1 h2 => (adSt_table n).2.2.2.2.2.2.2.2 h1 h2,
    fun _ _ h => adSt_split_mono h,
    fun n split threshold mask => comp_adaptive_update_eq n split threshold mask⟩

/-- Witness for C5 at the first transition point and on both sides. -/
theorem C5_adaptive_split_witness :
    adSt 17 = ⟨11, 2047, 32⟩ ∧ adSt 16 = ⟨12, 4095, 16⟩ ∧
      comp_adaptive_update 17 12 16 = (11, 32) := by
  refine ⟨C5_adaptive_split.2.1 17 (by decide) (by decide),
    C5_adaptive_split.1 16 (by decide), ?_⟩
  rw [C5_adaptive_split.2.2.2.2.2.2.2.2.2.2 17 12 16 4095]
  rw [show (⟨12, 4095, 16⟩ : AdaptiveState) = adSt 0 from rfl,
    adSt_comp (by decide), C5_adaptive_split.2.1 17 (by decide) (by decide)]

/-- C9: materializing an `offset = 1` match through the RLE fast path is
byte-identical to the general byte-at-a-time forward copy from
`output.length - offset`. -/
theorem C9_rle_equiv (out : List Nat) (len : Nat) (h : 0 < out.length) :
    apply_match out len 1 = (lzCopy out (out.length - 1) len, none) ∧
    out ++ List.replicate len (out.getD (out.length - 1) 0) =
      lzCopy out (out.length - 1) len := by
  have he := rle_eq_lzCopy len out h
  constructor
  · unfold apply_match
    rw [if_neg (by omega), if_pos rfl, he]
  · exact he

/-- Witness for C9 on a concrete buffer. -/
theorem C9_rle_equiv_witness :
    apply_match [7] 3 1 = (lzCopy [7] 0 3, none) ∧
    [7] ++ List.replicate 3 ([7].getD 0 0) = lzCopy [7] 0 3 :=
  C9_rle_equiv [7] 3 (by decide)

/-- C6: the decoder accepts (a) a single trailing zero byte at the top level,
(b) a `0x0000` header as stream terminator with the remaining input ignored,
and (c) a body that ends mid-tag-group at a literal position — all as `Ok`. -/
theorem C6_tolerant_eof :
    (∀ fuel out, decompress_loop (fuel + 1) [0] out = (out, none)) ∧
    (∀ fuel rest out, decompress_loop (fuel + 1) (0 :: 0 :: rest) out =
      (out, none)) ∧
    (∀ tag k j out sl st, Nat.land (tag >>> j) 1 = 0 →
      tag_group_loop tag (k + 1) j [] out sl st = .done out) ∧
    (∀ fuel tag out sl st, Nat.land tag 1 = 0 →
      block_loop (fuel + 1) [tag] out sl st = (out, none)) := by
  refine ⟨fun fuel out => rfl, fun fuel rest out => rfl,
    fun tag k j out sl st h => tgl_lit_nil tag k j out sl st h, ?_⟩
  intro fuel tag out sl st h
  rw [bl_cons, if_neg (by simp)]
  rw [tgl_lit_nil tag 7 0 out sl st (by simpa using h)]

/-- Witness for C6: concrete instances of all four tolerant cases. -/
theorem C6_tolerant_eof_witness :
    decompress_loop 1 [0] [9] = ([9], none) ∧
    decompress_loop 1 [0, 0, 5, 5] [9] = ([9], none) ∧
    tag_group_loop 4 8 0 [] [9] 0 initAdaptive = .done [9] ∧
    block_loop 1 [4] [9] 0 initAdaptive = ([9], none) :=
  ⟨C6_tolerant_eof.1 0 [9], C6_tolerant_eof.2.1 0 [5, 5] [9],
    C6_tolerant_eof.2.2.1 4 7 0 [9] 0 initAdaptive (by decide),
    C6_tolerant_eof.2.2.2 0 4 [9] 0 initAdaptive (by decide)⟩


/-- C4: for a single chunk (`1 ≤ n ≤ 4096`), `compress` emits the compressed
form exactly when the encoded body is strictly smaller than `n`; otherwise the
output is exactly `n + 2` bytes whose first little-endian 16-bit word is
`0x3000 | (n - 1)`, followed by the chunk verbatim. -/
theorem C4_compressed_or_raw (x : List Nat) (h1 : 1 ≤ x.length)
    (h2 : x.length ≤ 4096) :
    ((compress_chunk x ctx_new).1.length < x.length →
      compress x [] =
        u16le (encode_header 0xB000 (compress_chunk x ctx_new).1.length) ++
          (compress_chunk x ctx_new).1) ∧
    (x.length ≤ (compress_chunk x ctx_new).1.length →
      compress x [] = u16le (Nat.lor 0x3000 (x.length - 1)) ++ x ∧
      (compress x []).length = x.length + 2 ∧
      (compress x []).getD 0 0 + 256 * (compress x []).getD 1 0 =
        Nat.lor 0x3000 (x.length - 1)) := by
  have hchunk : (x.drop 0).take (min (x.length - 0) 4096) = x := by
    rw [List.drop_zero, Nat.sub_zero, Nat.min_eq_left h2, List.take_length]
  obtain ⟨m, hm⟩ : ∃ m, x.length = m + 1 := ⟨x.length - 1, by omega⟩
  have htail : compress_loop x x.length (0 + min (x.length - 0) 4096)
      (compress_chunk x ctx_new).2 = [] := by
    rw [hm]
    show (if 0 + min (m + 1 - 0) 4096 < x.length then _ else _) = _
    rw [if_neg (by omega)]
  have hout : compress x [] =
      if (compress_chunk x ctx_new).1.length < x.length then
        u16le (encode_header 0xB000 (compress_chunk x ctx_new).1.length) ++
          (compress_chunk x ctx_new).1
      else u16le (encode_header 0x3000 x.length) ++ x := by
    show [] ++ compress_loop x (x.length + 1) 0 ctx_new = _
    rw [List.nil_append]
    have hloop : compress_loop x (x.length + 1) 0 ctx_new =
        (if (compress_chunk ((x.drop 0).take (min (x.length - 0) 4096))
              ctx_new).1.length <
            ((x.drop 0).take (min (x.length - 0) 4096)).length then
          u16le (encode_header 0xB000
            (compress_chunk ((x.drop 0).take (min (x.length - 0) 4096))
              ctx_new).1.length) ++
            (compress_chunk ((x.drop 0).take (min (x.length - 0) 4096))
              ctx_new).1
        else
          u16le (encode_header 0x3000
            ((x.drop 0).take (min (x.length - 0) 4096)).length) ++
            (x.drop 0).take (min (x.length - 0) 4096)) ++
          compress_loop x x.length (0 + min (x.length - 0) 4096)
            (compress_chunk ((x.drop 0).take (min (x.length - 0) 4096))
              ctx_new).2 := by
      show (if 0 < x.length then _ else _) = _
      rw [if_pos (show 0 < x.length from h1)]
    rw [hloop, hchunk, htail, List.append_nil]
  constructor
  · intro hlt
    rw [hout, if_pos hlt]
  · intro hge
    have hne : ¬ (compress_chunk x ctx_new).1.length < x.length := by omega
    rw [hout, if_neg hne]
    have hhdr : encode_header 0x3000 x.length = Nat.lor 0x3000 (x.length - 1) := by
      rw [encode_header_eq 0x3000 h1 h2, lor_eq_or]
    have hhlt : Nat.lor 0x3000 (x.length - 1) < 65536 := by
      rw [lor_eq_or, show (0x3000 : Nat) = 3 <<< 12 from by decide]
      exact pack_lt_u16 (by norm_num) (by norm_num)
        (lt_of_lt_of_le (show x.length - 1 < 4096 by omega) (by norm_num))
    refine ⟨by rw [hhdr], ?_, ?_⟩
    · rw [hhdr]
      show (u16le _ ++ x).length = _
      rw [List.length_append]
      simp [u16le]
      omega
    · rw [hhdr]
      show Nat.lor 0x3000 (x.length - 1) % 256 +
        256 * (Nat.lor 0x3000 (x.length - 1) / 256 % 256) = _
      exact u16_le_roundtrip hhlt

/-- Witness for C4: the three-byte input `[1, 2, 3]` does not compress, so it
is stored raw behind the header `0x3002`. -/
theorem C4_compressed_or_raw_witness :
    compress [1, 2, 3] [] = u16le (Nat.lor 0x3000 2) ++ [1, 2, 3] ∧
    (compress [1, 2, 3] []).length = 3 + 2 :=
  ⟨((C4_compressed_or_raw [1, 2, 3] (by decide) (by decide)).2 (by decide)).1,
   (((C4_compressed_or_raw [1, 2, 3] (by decide) (by decide)).2 (by decide)).2).1⟩


/-- `apply_match` either succeeds or reports `InvalidOffset`; it has no other
error. -/
theorem apply_match_err (out : List Nat) (len off : Nat) :
    (apply_match out len off).2 = none ∨
    (apply_match out len off).2 = some DecompressionError.invalidOffset := by
  unfold apply_match
  by_cases h : out.length < off
  · rw [if_pos h]; exact Or.inr rfl
  · rw [if_neg h]
    by_cases h1 : off = 1
    · rw [if_pos h1]; exact Or.inl rfl
    · rw [if_neg h1]; exact Or.inl rfl

/-- Step equation of the tag-group loop. -/
theorem tgl_step (tag k i : Nat) (rem out : List Nat) (startLen : Nat)
    (st : AdaptiveState) :
    tag_group_loop tag (k + 1) i rem out startLen st =
      (if Nat.land (tag >>> i) 1 ≠ 0 then
        match rem with
        | b0 :: b1 :: rest =>
          match apply_match out (Nat.land (b0 + 256 * b1) st.mask + 3)
              (((b0 + 256 * b1) >>> st.split) + 1) with
          | (out2, some e) => .err out2 e
          | (out2, none) =>
            if rest = [] then .done out2
            else tag_group_loop tag k (i + 1) rest out2 startLen
              (update_adaptive_state (out2.length - startLen) st)
        | _ => .err out .unexpectedEof
      else
        match rem with
        | [] => .done out
        | b :: rest =>
          if rest = [] then .done (out ++ [b])
          else tag_group_loop tag k (i + 1) rest (out ++ [b]) startLen
            (update_adaptive_state ((out ++ [b]).length - startLen) st)) := rfl

/-- The tag-group loop never reports `InputTooShort` (its only errors are
`UnexpectedEof` for a truncated tuple and `InvalidOffset` from
`apply_match`). -/
theorem tgl_no_its : ∀ (k tag i : Nat) (rem out : List Nat) (startLen : Nat)
    (st : AdaptiveState) (out' : List Nat),
    tag_group_loop tag k i rem out startLen st ≠
      GroupResult.err out' DecompressionError.inputTooShort := by
  intro k
  induction k with
  | zero =>
    intro tag i rem out startLen st out' h
    exact GroupResult.noConfusion h
  | succ k ih =>
    intro tag i rem out startLen st out' h
    rw [tgl_step] at h
    by_cases hbit : Nat.land (tag >>> i) 1 ≠ 0
    · rw [if_pos hbit] at h
      cases rem with
      | nil =>
        have h2 : GroupResult.err out DecompressionError.unexpectedEof =
            GroupResult.err out' DecompressionError.inputTooShort := h
        exact DecompressionError.noConfusion (GroupResult.err.inj h2).2
      | cons b0 rest1 =>
        cases rest1 with
        | nil =>
          have h2 : GroupResult.err out DecompressionError.unexpectedEof =
              GroupResult.err out' DecompressionError.inputTooShort := h
          exact DecompressionError.noConfusion (GroupResult.err.inj h2).2
        | cons b1 rest =>
          have h2 : (match apply_match out
              (Nat.land (b0 + 256 * b1) st.mask + 3)
              (((b0 + 256 * b1) >>> st.split) + 1) with
            | (out2, some e) => GroupResult.err out2 e
            | (out2, none) =>
              if rest = [] then GroupResult.done out2
              else tag_group_loop tag k (i + 1) rest out2 startLen
                (update_adaptive_state (out2.length - startLen) st)) =
              GroupResult.err out' DecompressionError.inputTooShort := h
          rcases ham : apply_match out (Nat.land (b0 + 256 * b1) st.mask + 3)
              (((b0 + 256 * b1) >>> st.split) + 1) with ⟨out2, e2⟩
          rw [ham] at h2
          cases e2 with
          | some e =>
            have h3 : GroupResult.err out2 e =
                GroupResult.err out' DecompressionError.inputTooShort := h2
            have he : e = DecompressionError.inputTooShort :=
              (GroupResult.err.inj h3).2
            rcases apply_match_err out (Nat.land (b0 + 256 * b1) st.mask + 3)
                (((b0 + 256 * b1) >>> st.split) + 1) with hn | hi
            · rw [ham] at hn; exact Option.noConfusion hn
            · rw [ham] at hi
              have he2 : e = DecompressionError.invalidOffset := Option.some.inj hi
              rw [he2] at he
              exact DecompressionError.noConfusion he
          | none =>
            have h3 : (if rest = [] then GroupResult.done out2
                else tag_group_loop tag k (i + 1) rest out2 startLen
                  (update_adaptive_state (out2.length - startLen) st)) =
                GroupResult.err out' DecompressionError.inputTooShort := h2
            by_cases hrnil : rest = []
            · rw [if_pos hrnil] at h3
              exact GroupResult.noConfusion h3
            · rw [if_neg hrnil] at h3
              exact ih tag (i + 1) rest out2 startLen
                (update_adaptive_state (out2.length - startLen) st) out' h3
    · rw [if_neg hbit] at h
      cases rem with
      | nil => exact GroupResult.noConfusion h
      | cons b rest =>
        have h2 : (if rest = [] then GroupResult.done (out ++ [b])
            else tag_group_loop tag k (i + 1) rest (out ++ [b]) startLen
              (update_adaptive_state ((out ++ [b]).length - startLen) st)) =
            GroupResult.err out' DecompressionError.inputTooShort := h
        by_cases hrnil : rest = []
        · rw [if_pos hrnil] at h2
          exact GroupResult.noConfusion h2
        · rw [if_neg hrnil] at h2
          exact ih tag (i + 1) rest (out ++ [b]) startLen
            (update_adaptive_state ((out ++ [b]).length - startLen) st) out' h2

/-- C3 is refuted as stated: after a raw chunk has produced one byte, a
back-reference in the immediately following compressed chunk with offset 1 —
while the current chunk has produced zero bytes — resolves into the previous
chunk's output and succeeds, instead of failing with `InvalidOffset`. -/
theorem C3_counterexample :
    decompress [0x00, 0x30, 0x41, 0x02, 0xB0, 0x01, 0x00, 0x00] [] =
      ([0x41, 0x41, 0x41, 0x41], none) := by decide

/-- C3 (amended): `apply_match` fails with `InvalidOffset` exactly when the
decoded offset exceeds the length of the whole output buffer — bytes produced
by earlier chunks and the caller's pre-existing bytes included — and
`InvalidOffset` is the only error it can produce. -/
theorem C3_offset_check (out : List Nat) (len off : Nat) :
    ((apply_match out len off).2 = some DecompressionError.invalidOffset ↔
      out.length < off) ∧
    ((apply_match out len off).2 = none ∨
      (apply_match out len off).2 = some DecompressionError.invalidOffset) := by
  unfold apply_match
  by_cases h : out.length < off
  · rw [if_pos h]
    exact ⟨⟨fun _ => h, fun _ => rfl⟩, Or.inr rfl⟩
  · rw [if_neg h]
    by_cases h1 : off = 1
    · rw [if_pos h1]
      exact ⟨⟨fun hc => absurd hc (by simp), fun hc => absurd hc h⟩, Or.inl rfl⟩
    · rw [if_neg h1]
      exact ⟨⟨fun hc => absurd hc (by simp), fun hc => absurd hc h⟩, Or.inl rfl⟩

/-- C7 is refuted in its fast-path half: a zero tag byte with fewer than 8
body bytes remaining is handled by the tolerant mixed loop (the fast path is
simply skipped), not reported as `InputTooShort`. -/
theorem C7_counterexample :
    decompress [0x01, 0xB0, 0x00, 0x41] [] = ([0x41], none) := by decide

/-- C7 (amended): `InputTooShort` arises exactly from the header bound — a
chunk header declaring a body size exceeding the remaining input — and from
nothing inside a compressed block: the block decoder never produces it. -/
theorem C7_input_too_short :
    (∀ b0 b1 rest out, b0 + 256 * b1 ≠ 0 →
      rest.length < Nat.land (b0 + 256 * b1) 0x0FFF + 1 →
      decompress (b0 :: b1 :: rest) out =
        (out, some DecompressionError.inputTooShort)) ∧
    (∀ fuel rem out startLen st,
      (block_loop fuel rem out startLen st).2 ≠
        some DecompressionError.inputTooShort) := by
  constructor
  · intro b0 b1 rest out h0 hsz
    show decompress_loop ((b0 :: b1 :: rest).length + 1) (b0 :: b1 :: rest) out = _
    rw [dl_cons, if_neg h0, if_pos hsz]
  · intro fuel
    induction fuel with
    | zero =>
      intro rem out startLen st h
      exact Option.noConfusion h
    | succ fuel ih =>
      intro rem out startLen st h
      cases rem with
      | nil => exact Option.noConfusion h
      | cons tagB rest0 =>
        rw [bl_cons] at h
        by_cases hfast : tagB = 0 ∧ 8 ≤ rest0.length
        · rw [if_pos hfast] at h
          exact ih _ _ _ _ h
        · rw [if_neg hfast] at h
          rcases htg : tag_group_loop tagB 8 0 rest0 out startLen st with
            ⟨out2, e2⟩ | out2 | ⟨rem2, out2, st2⟩
          · rw [htg] at h
            have he2 : some e2 = some DecompressionError.inputTooShort := h
            rw [Option.some.inj he2] at htg
            exact tgl_no_its 8 tagB 0 rest0 out startLen st out2 htg
          · rw [htg] at h
            exact Option.noConfusion h
          · rw [htg] at h
            exact ih _ _ _ _ h

/-- Witness for C7: the header `0xB063` declares 100 body bytes with none
remaining; and a concrete in-block run never reports `InputTooShort`. -/
theorem C7_input_too_short_witness :
    decompress [0x63, 0xB0] [] = ([], some DecompressionError.inputTooShort) ∧
    (block_loop 3 [0x00, 0x41] [] 0 initAdaptive).2 ≠
      some DecompressionError.inputTooShort :=
  ⟨C7_input_too_short.1 0x63 0xB0 [] [] (by decide) (by decide),
   C7_input_too_short.2 3 [0x00, 0x41] [] 0 initAdaptive⟩


/-- The top-level decompress loop is fuel-stable: any fuel strictly above the
remaining input length gives the same result. -/
theorem dl_fuel_irrel : ∀ (f g : Nat) (rem out : List Nat),
    rem.length < f → rem.length < g →
    decompress_loop f rem out = decompress_loop g rem out := by
  intro f
  induction f with
  | zero => intro g rem out hf _; omega
  | succ f ih =>
    intro g rem out hf hg
    obtain ⟨g', rfl⟩ : ∃ g', g = g' + 1 := ⟨g - 1, by omega⟩
    cases rem with
    | nil => rfl
    | cons b0 rest1 =>
      cases rest1 with
      | nil => rfl
      | cons b1 rest =>
        rw [dl_cons, dl_cons]
        by_cases h0 : b0 + 256 * b1 = 0
        · rw [if_pos h0, if_pos h0]
        · rw [if_neg h0, if_neg h0]
          by_cases hsz : rest.length < Nat.land (b0 + 256 * b1) 0x0FFF + 1
          · rw [if_pos hsz, if_pos hsz]
          · rw [if_neg hsz, if_neg hsz]
            rcases _hstep : (if Nat.land (b0 + 256 * b1) 0x8000 ≠ 0 then
                decompress_compressed_block
                  (rest.take (Nat.land (b0 + 256 * b1) 0x0FFF + 1)) out
              else
                (out ++ rest.take (Nat.land (b0 + 256 * b1) 0x0FFF + 1), none))
              with ⟨o, e⟩
            cases e with
            | some e => rfl
            | none =>
              show decompress_loop f
                  (rest.drop (Nat.land (b0 + 256 * b1) 0x0FFF + 1)) o =
                decompress_loop g'
                  (rest.drop (Nat.land (b0 + 256 * b1) 0x0FFF + 1)) o
              refine ih g' _ o ?_ ?_ <;>
                · rw [List.length_drop]
                  simp only [List.length_cons] at hf hg
                  omega

/-- One full step of `decompress` on an input starting with a nonzero
little-endian header word: the body size is `(header & 0x0FFF) + 1` and the
compressed/raw dispatch is on `header & 0x8000`. -/
theorem decompress_cons_step (b0 b1 : Nat) (rest out : List Nat)
    (h0 : b0 + 256 * b1 ≠ 0) :
    decompress (b0 :: b1 :: rest) out =
      (if rest.length < Nat.land (b0 + 256 * b1) 0x0FFF + 1 then
        (out, some DecompressionError.inputTooShort)
      else
        match (if Nat.land (b0 + 256 * b1) 0x8000 ≠ 0 then
            decompress_compressed_block
              (rest.take (Nat.land (b0 + 256 * b1) 0x0FFF + 1)) out
          else (out ++ rest.take (Nat.land (b0 + 256 * b1) 0x0FFF + 1), none)) with
        | (o, some e) => (o, some e)
        | (o, none) =>
          decompress (rest.drop (Nat.land (b0 + 256 * b1) 0x0FFF + 1)) o) := by
  show decompress_loop ((b0 :: b1 :: rest).length + 1) (b0 :: b1 :: rest) out = _
  rw [dl_cons, if_neg h0]
  by_cases hsz : rest.length < Nat.land (b0 + 256 * b1) 0x0FFF + 1
  · rw [if_pos hsz, if_pos hsz]
  · rw [if_neg hsz, if_neg hsz]
    rcases _hstep : (if Nat.land (b0 + 256 * b1) 0x8000 ≠ 0 then
        decompress_compressed_block
          (rest.take (Nat.land (b0 + 256 * b1) 0x0FFF + 1)) out
      else (out ++ rest.take (Nat.land (b0 + 256 * b1) 0x0FFF + 1), none))
      with ⟨o, e⟩
    cases e with
    | some e => rfl
    | none =>
      show decompress_loop (b0 :: b1 :: rest).length
          (rest.drop (Nat.land (b0 + 256 * b1) 0x0FFF + 1)) o =
        decompress_loop
          ((rest.drop (Nat.land (b0 + 256 * b1) 0x0FFF + 1)).length + 1)
          (rest.drop (Nat.land (b0 + 256 * b1) 0x0FFF + 1)) o
      refine dl_fuel_irrel _ _ _ o ?_ (Nat.lt_succ_self _)
      rw [List.length_drop]
      simp only [List.length_cons]
      omega

/-- C8: on every nonzero header the decoder reads the body size as
`(header & 0x0FFF) + 1` and branches on `header & 0x8000` alone, so two
nonzero headers agreeing on bit 15 and on the low 12 bits — regardless of
bits 12–14 — behave identically. -/
theorem C8_bit15_dispatch :
    (∀ b0 b1 rest out, b0 + 256 * b1 ≠ 0 →
      decompress (b0 :: b1 :: rest) out =
        (if rest.length < Nat.land (b0 + 256 * b1) 0x0FFF + 1 then
          (out, some DecompressionError.inputTooShort)
        else
          match (if Nat.land (b0 + 256 * b1) 0x8000 ≠ 0 then
              decompress_compressed_block
                (rest.take (Nat.land (b0 + 256 * b1) 0x0FFF + 1)) out
            else
              (out ++ rest.take (Nat.land (b0 + 256 * b1) 0x0FFF + 1), none)) with
          | (o, some e) => (o, some e)
          | (o, none) =>
            decompress (rest.drop (Nat.land (b0 + 256 * b1) 0x0FFF + 1)) o)) ∧
    (∀ b0 b1 b0' b1' rest out,
      b0 + 256 * b1 ≠ 0 → b0' + 256 * b1' ≠ 0 →
      Nat.land (b0 + 256 * b1) 0x8000 = Nat.land (b0' + 256 * b1') 0x8000 →
      Nat.land (b0 + 256 * b1) 0x0FFF = Nat.land (b0' + 256 * b1') 0x0FFF →
      decompress (b0 :: b1 :: rest) out = decompress (b0' :: b1' :: rest) out) := by
  refine ⟨fun b0 b1 rest out h0 => decompress_cons_step b0 b1 rest out h0, ?_⟩
  intro b0 b1 b0' b1' rest out h0 h0' h15 h12
  rw [decompress_cons_step b0 b1 rest out h0,
    decompress_cons_step b0' b1' rest out h0', h15, h12]

/-- Witness for C8: the headers `0x1005` and `0x3005` share bit 15 and the
low 12 bits but differ in bits 12–14, and decode identically. -/
theorem C8_bit15_dispatch_witness :
    decompress [0x05, 0x10, 1, 2, 3, 4, 5, 6] [] =
      decompress [0x05, 0x30, 1, 2, 3, 4, 5, 6] [] :=
  C8_bit15_dispatch.2 0x05 0x10 0x05 0x30 [1, 2, 3, 4, 5, 6] []
    (by decide) (by decide) (by decide) (by decide)


/-- The tag-group loop only ever appends to the output buffer, whatever result
it produces. -/
theorem tgl_append : ∀ (k tag i : Nat) (rem out : List Nat) (startLen : Nat)
    (st : AdaptiveState),
    (∀ o e, tag_group_loop tag k i rem out startLen st = GroupResult.err o e →
      ∃ t, o = out ++ t) ∧
    (∀ o, tag_group_loop tag k i rem out startLen st = GroupResult.done o →
      ∃ t, o = out ++ t) ∧
    (∀ r o st2,
      tag_group_loop tag k i rem out startLen st = GroupResult.next r o st2 →
      ∃ t, o = out ++ t) := by
  intro k
  induction k with
  | zero =>
    intro tag i rem out startLen st
    refine ⟨fun o e h => GroupResult.noConfusion h,
      fun o h => GroupResult.noConfusion h, fun r o st2 h => ?_⟩
    exact ⟨[], by rw [← (GroupResult.next.inj h).2.1, List.append_nil]⟩
  | succ k ih =>
    intro tag i rem out startLen st
    by_cases hbit : Nat.land (tag >>> i) 1 ≠ 0
    · cases rem with
      | nil =>
        refine ⟨fun o e h => ?_, fun o h => ?_, fun r o st2 h => ?_⟩
        · have h2 : GroupResult.err out DecompressionError.unexpectedEof =
              GroupResult.err o e := by rw [← h, tgl_step, if_pos hbit]
          exact ⟨[], by rw [← (GroupResult.err.inj h2).1, List.append_nil]⟩
        · have h2 : GroupResult.err out DecompressionError.unexpectedEof =
              GroupResult.done o := by rw [← h, tgl_step, if_pos hbit]
          exact GroupResult.noConfusion h2
        · have h2 : GroupResult.err out DecompressionError.unexpectedEof =
              GroupResult.next r o st2 := by rw [← h, tgl_step, if_pos hbit]
          exact GroupResult.noConfusion h2
      | cons b0 rest1 =>
        cases rest1 with
        | nil =>
          refine ⟨fun o e h => ?_, fun o h => ?_, fun r o st2 h => ?_⟩
          · have h2 : GroupResult.err out DecompressionError.unexpectedEof =
                GroupResult.err o e := by rw [← h, tgl_step, if_pos hbit]
            exact ⟨[], by rw [← (GroupResult.err.inj h2).1, List.append_nil]⟩
          · have h2 : GroupResult.err out DecompressionError.unexpectedEof =
                GroupResult.done o := by rw [← h, tgl_step, if_pos hbit]
            exact GroupResult.noConfusion h2
          · have h2 : GroupResult.err out DecompressionError.unexpectedEof =
                GroupResult.next r o st2 := by rw [← h, tgl_step, if_pos hbit]
            exact GroupResult.noConfusion h2
        | cons b1 rest =>
          have hstep : tag_group_loop tag (k + 1) i (b0 :: b1 :: rest) out
              startLen st =
              (match apply_match out (Nat.land (b0 + 256 * b1) st.mask + 3)
                  (((b0 + 256 * b1) >>> st.split) + 1) with
              | (out2, some e) => GroupResult.err out2 e
              | (out2, none) =>
                if rest = [] then GroupResult.done out2
                else tag_group_loop tag k (i + 1) rest out2 startLen
                  (update_adaptive_state (out2.length - startLen) st)) := by
            rw [tgl_step, if_pos hbit]
          obtain ⟨t0, ht0⟩ := apply_match_append out
            (Nat.land (b0 + 256 * b1) st.mask + 3)
            (((b0 + 256 * b1) >>> st.split) + 1)
          rcases ham : apply_match out (Nat.land (b0 + 256 * b1) st.mask + 3)
              (((b0 + 256 * b1) >>> st.split) + 1) with ⟨out2, e2⟩
          rw [ham] at hstep ht0
          have hout2 : out2 = out ++ t0 := ht0
          cases e2 with
          | some e2 =>
            have hres : tag_group_loop tag (k + 1) i (b0 :: b1 :: rest) out
                startLen st = GroupResult.err out2 e2 := hstep
            refine ⟨fun o e h => ?_, fun o h => ?_, fun r o st2 h => ?_⟩
            · rw [hres] at h
              exact ⟨t0, by rw [← (GroupResult.err.inj h).1, hout2]⟩
            · rw [hres] at h
              exact GroupResult.noConfusion h
            · rw [hres] at h
              exact GroupResult.noConfusion h
          | none =>
            by_cases hrnil : rest = []
            · have hres : tag_group_loop tag (k + 1) i (b0 :: b1 :: rest) out
                  startLen st = GroupResult.done out2 := by
                rw [hstep]
                show (if rest = [] then _ else _) = _
                rw [if_pos hrnil]
              refine ⟨fun o e h => ?_, fun o h => ?_, fun r o st2 h => ?_⟩
              · rw [hres] at h
                exact GroupResult.noConfusion h
              · rw [hres] at h
                exact ⟨t0, by rw [← GroupResult.done.inj h, hout2]⟩
              · rw [hres] at h
                exact GroupResult.noConfusion h
            · have hres : tag_group_loop tag (k + 1) i (b0 :: b1 :: rest) out
                  startLen st = tag_group_loop tag k (i + 1) rest out2 startLen
                    (update_adaptive_state (out2.length - startLen) st) := by
                rw [hstep]
                show (if rest = [] then _ else _) = _
                rw [if_neg hrnil]
              obtain ⟨ihe, ihd, ihn⟩ := ih tag (i + 1) rest out2 startLen
                (update_adaptive_state (out2.length - startLen) st)
              refine ⟨fun o e h => ?_, fun o h => ?_, fun r o st2 h => ?_⟩
              · rw [hres] at h
                obtain ⟨t1, ht1⟩ := ihe o e h
                exact ⟨t0 ++ t1, by rw [ht1, hout2, List.append_assoc]⟩
              · rw [hres] at h
                obtain ⟨t1, ht1⟩ := ihd o h
                exact ⟨t0 ++ t1, by rw [ht1, hout2, List.append_assoc]⟩
              · rw [hres] at h
                obtain ⟨t1, ht1⟩ := ihn r o st2 h
                exact ⟨t0 ++ t1, by rw [ht1, hout2, List.append_assoc]⟩
    · cases rem with
      | nil =>
        have hres : tag_group_loop tag (k + 1) i [] out startLen st =
            GroupResult.done out := by rw [tgl_step, if_neg hbit]
        refine ⟨fun o e h => ?_, fun o h => ?_, fun r o st2 h => ?_⟩
        · rw [hres] at h
          exact GroupResult.noConfusion h
        · rw [hres] at h
          exact ⟨[], by rw [← GroupResult.done.inj h, List.append_nil]⟩
        · rw [hres] at h
          exact GroupResult.noConfusion h
      | cons b rest =>
        by_cases hrnil : rest = []
        · have hres : tag_group_loop tag (k + 1) i (b :: rest) out startLen st =
              GroupResult.done (out ++ [b]) := by
            rw [tgl_step, if_neg hbit]
            show (if rest = [] then _ else _) = _
            rw [if_pos hrnil]
          refine ⟨fun o e h => ?_, fun o h => ?_, fun r o st2 h => ?_⟩
          · rw [hres] at h
            exact GroupResult.noConfusion h
          · rw [hres] at h
            exact ⟨[b], (GroupResult.done.inj h).symm⟩
          · rw [hres] at h
            exact GroupResult.noConfusion h
        · have hres : tag_group_loop tag (k + 1) i (b :: rest) out startLen st =
              tag_group_loop tag k (i + 1) rest (out ++ [b]) startLen
                (update_adaptive_state ((out ++ [b]).length - startLen) st) := by
            rw [tgl_step, if_neg hbit]
            show (if rest = [] then _ else _) = _
            rw [if_neg hrnil]
          obtain ⟨ihe, ihd, ihn⟩ := ih tag (i + 1) rest (out ++ [b]) startLen
            (update_adaptive_state ((out ++ [b]).length - startLen) st)
          refine ⟨fun o e h => ?_, fun o h => ?_, fun r o st2 h => ?_⟩
          · rw [hres] at h
            obtain ⟨t1, ht1⟩ := ihe o e h
            exact ⟨[b] ++ t1, by rw [ht1, List.append_assoc]⟩
          · rw [hres] at h
            obtain ⟨t1, ht1⟩ := ihd o h
            exact ⟨[b] ++ t1, by rw [ht1, List.append_assoc]⟩
          · rw [hres] at h
            obtain ⟨t1, ht1⟩ := ihn r o st2 h
            exact ⟨[b] ++ t1, by rw [ht1, List.append_assoc]⟩

/-- The block loop only ever appends to the output buffer. -/
theorem bl_append : ∀ (fuel : Nat) (rem out : List Nat) (startLen : Nat)
    (st : AdaptiveState),
    ∃ t, (block_loop fuel rem out startLen st).1 = out ++ t := by
  intro fuel
  induction fuel with
  | zero =>
    intro rem out startLen st
    refine ⟨[], ?_⟩
    rw [List.append_nil]
    rfl
  | succ fuel ih =>
    intro rem out startLen st
    cases rem with
    | nil =>
      refine ⟨[], ?_⟩
      rw [List.append_nil]
      rfl
    | cons tagB rest0 =>
      rw [bl_cons]
      by_cases hfast : tagB = 0 ∧ 8 ≤ rest0.length
      · rw [if_pos hfast]
        obtain ⟨t1, ht1⟩ := ih (rest0.drop 8) (out ++ rest0.take 8) startLen
          (update_adaptive_state ((out ++ rest0.take 8).length - startLen) st)
        exact ⟨rest0.take 8 ++ t1, by rw [ht1, List.append_assoc]⟩
      · rw [if_neg hfast]
        obtain ⟨tge, tgd, tgn⟩ := tgl_append 8 tagB 0 rest0 out startLen st
        rcases htg : tag_group_loop tagB 8 0 rest0 out startLen st with
          ⟨out2, e2⟩ | out2 | ⟨rem2, out2, st2⟩
        · exact tge out2 e2 htg
        · exact tgd out2 htg
        · obtain ⟨t0, ht0⟩ := tgn rem2 out2 st2 htg
          obtain ⟨t1, ht1⟩ := ih rem2 out2 startLen st2
          exact ⟨t0 ++ t1, by rw [ht1, ht0, List.append_assoc]⟩

/-- The top-level decompress loop only ever appends to the output buffer. -/
theorem dl_append : ∀ (fuel : Nat) (rem out : List Nat),
    ∃ t, (decompress_loop fuel rem out).1 = out ++ t := by
  intro fuel
  induction fuel with
  | zero =>
    intro rem out
    refine ⟨[], ?_⟩
    rw [List.append_nil]
    rfl
  | succ fuel ih =>
    intro rem out
    cases rem with
    | nil =>
      refine ⟨[], ?_⟩
      rw [List.append_nil]
      rfl
    | cons b0 rest1 =>
      cases rest1 with
      | nil =>
        by_cases hb : b0 = 0
        · exact ⟨[], by
            show (if b0 = 0 then ((out, none) :
                List Nat × Option DecompressionError) else
              (out, some DecompressionError.unexpectedEof)).1 = _
            rw [if_pos hb, List.append_nil]⟩
        · exact ⟨[], by
            show (if b0 = 0 then ((out, none) :
                List Nat × Option DecompressionError) else
              (out, some DecompressionError.unexpectedEof)).1 = _
            rw [if_neg hb, List.append_nil]⟩
      | cons b1 rest =>
        rw [dl_cons]
        by_cases h0 : b0 + 256 * b1 = 0
        · rw [if_pos h0]
          exact ⟨[], by rw [List.append_nil]⟩
        · rw [if_neg h0]
          by_cases hsz : rest.length < Nat.land (b0 + 256 * b1) 0x0FFF + 1
          · rw [if_pos hsz]
            exact ⟨[], by rw [List.append_nil]⟩
          · rw [if_neg hsz]
            have hblk := bl_append
              ((rest.take (Nat.land (b0 + 256 * b1) 0x0FFF + 1)).length + 1)
              (rest.take (Nat.land (b0 + 256 * b1) 0x0FFF + 1)) out
              out.length initAdaptive
            rcases hstep : (if Nat.land (b0 + 256 * b1) 0x8000 ≠ 0 then
                decompress_compressed_block
                  (rest.take (Nat.land (b0 + 256 * b1) 0x0FFF + 1)) out
              else
                (out ++ rest.take (Nat.land (b0 + 256 * b1) 0x0FFF + 1), none))
              with ⟨o, e⟩
            have hoapp : ∃ t, o = out ++ t := by
              by_cases hc : Nat.land (b0 + 256 * b1) 0x8000 ≠ 0
              · rw [if_pos hc] at hstep
                obtain ⟨t0, ht0⟩ := hblk
                rw [show decompress_compressed_block
                    (rest.take (Nat.land (b0 + 256 * b1) 0x0FFF + 1)) out =
                  block_loop
                    ((rest.take (Nat.land (b0 + 256 * b1) 0x0FFF + 1)).length + 1)
                    (rest.take (Nat.land (b0 + 256 * b1) 0x0FFF + 1)) out
                    out.length initAdaptive from rfl] at hstep
                rw [hstep] at ht0
                exact ⟨t0, ht0⟩
              · rw [if_neg hc] at hstep
                exact ⟨rest.take (Nat.land (b0 + 256 * b1) 0x0FFF + 1),
                  (Prod.mk.inj hstep).1.symm⟩
            obtain ⟨t0, ht0⟩ := hoapp
            cases e with
            | some e =>
              exact ⟨t0, ht0⟩
            | none =>
              obtain ⟨t1, ht1⟩ :=
                ih (rest.drop (Nat.land (b0 + 256 * b1) 0x0FFF + 1)) o
              exact ⟨t0 ++ t1, by rw [ht1, ht0, List.append_assoc]⟩

/-- C10: both entry points treat the caller's buffer as append-only — the
pre-existing bytes survive unchanged as a prefix of the result, on success and
on error alike. -/
theorem C10_append_only (input out : List Nat) :
    (∃ t, compress input out = out ++ t) ∧
    (∃ t, (decompress input out).1 = out ++ t) :=
  ⟨⟨compress_loop input (input.length + 1) 0 ctx_new, rfl⟩,
   dl_append (input.length + 1) input out⟩


/-- Per-item output growth of the tag-group loop: every consumed body byte
accounts for at most 4098 appended bytes, and the adaptive-state invariant
(`split ≤ 12`, `mask = 2 ^ split - 1`) is maintained. -/
theorem tgl_bound : ∀ (k tag i : Nat) (rem out : List Nat) (startLen : Nat)
    (st : AdaptiveState), st.split ≤ 12 → st.mask = 2 ^ st.split - 1 →
    (∀ o e, tag_group_loop tag k i rem out startLen st = GroupResult.err o e →
      o.length ≤ out.length + 4098 * rem.length) ∧
    (∀ o, tag_group_loop tag k i rem out startLen st = GroupResult.done o →
      o.length ≤ out.length + 4098 * rem.length) ∧
    (∀ r o st2,
      tag_group_loop tag k i rem out startLen st = GroupResult.next r o st2 →
      o.length + 4098 * r.length ≤ out.length + 4098 * rem.length ∧
      st2.split ≤ 12 ∧ st2.mask = 2 ^ st2.split - 1) := by
  intro k
  induction k with
  | zero =>
    intro tag i rem out startLen st hsplit hmask
    refine ⟨fun o e h => GroupResult.noConfusion h,
      fun o h => GroupResult.noConfusion h, fun r o st2 h => ?_⟩
    obtain ⟨h1, h2, h3⟩ := GroupResult.next.inj h
    rw [← h1, ← h2, ← h3]
    exact ⟨Nat.le_refl _, hsplit, hmask⟩
  | succ k ih =>
    intro tag i rem out startLen st hsplit hmask
    have hm4095 : st.mask ≤ 4095 := by
      rw [hmask]
      have h2 : 2 ^ st.split ≤ 2 ^ 12 := Nat.pow_le_pow_right (by norm_num) hsplit
      omega
    by_cases hbit : Nat.land (tag >>> i) 1 ≠ 0
    · cases rem with
      | nil =>
        refine ⟨fun o e h => ?_, fun o h => ?_, fun r o st2 h => ?_⟩
        · have h2 : GroupResult.err out DecompressionError.unexpectedEof =
              GroupResult.err o e := by rw [← h, tgl_step, if_pos hbit]
          rw [← (GroupResult.err.inj h2).1]
          exact Nat.le_add_right _ _
        · have h2 : GroupResult.err out DecompressionError.unexpectedEof =
              GroupResult.done o := by rw [← h, tgl_step, if_pos hbit]
          exact GroupResult.noConfusion h2
        · have h2 : GroupResult.err out DecompressionError.unexpectedEof =
              GroupResult.next r o st2 := by rw [← h, tgl_step, if_pos hbit]
          exact GroupResult.noConfusion h2
      | cons b0 rest1 =>
        cases rest1 with
        | nil =>
          refine ⟨fun o e h => ?_, fun o h => ?_, fun r o st2 h => ?_⟩
          · have h2 : GroupResult.err out DecompressionError.unexpectedEof =
                GroupResult.err o e := by rw [← h, tgl_step, if_pos hbit]
            rw [← (GroupResult.err.inj h2).1]
            exact Nat.le_add_right _ _
          · have h2 : GroupResult.err out DecompressionError.unexpectedEof =
                GroupResult.done o := by rw [← h, tgl_step, if_pos hbit]
            exact GroupResult.noConfusion h2
          · have h2 : GroupResult.err out DecompressionError.unexpectedEof =
                GroupResult.next r o st2 := by rw [← h, tgl_step, if_pos hbit]
            exact GroupResult.noConfusion h2
        | cons b1 rest =>
          have hstep : tag_group_loop tag (k + 1) i (b0 :: b1 :: rest) out
              startLen st =
              (match apply_match out (Nat.land (b0 + 256 * b1) st.mask + 3)
                  (((b0 + 256 * b1) >>> st.split) + 1) with
              | (out2, some e) => GroupResult.err out2 e
              | (out2, none) =>
                if rest = [] then GroupResult.done out2
                else tag_group_loop tag k (i + 1) rest out2 startLen
                  (update_adaptive_state (out2.length - startLen) st)) := by
            rw [tgl_step, if_pos hbit]
          have hL : Nat.land (b0 + 256 * b1) st.mask + 3 ≤ 4098 := by
            have h1 : Nat.land (b0 + 256 * b1) st.mask ≤ st.mask := by
              rw [land_eq_and]
              exact Nat.and_le_right
            omega
          have hlen := apply_match_length out
            (Nat.land (b0 + 256 * b1) st.mask + 3)
            (((b0 + 256 * b1) >>> st.split) + 1)
          rcases ham : apply_match out (Nat.land (b0 + 256 * b1) st.mask + 3)
              (((b0 + 256 * b1) >>> st.split) + 1) with ⟨out2, e2⟩
          rw [ham] at hstep hlen
          have hout2 : out2.length ≤ out.length + 4098 := by
            have h2 : out2.length ≤
                out.length + (Nat.land (b0 + 256 * b1) st.mask + 3) := hlen
            omega
          have hremlen : (b0 :: b1 :: rest).length = rest.length + 2 := by simp
          cases e2 with
          | some e2 =>
            have hres : tag_group_loop tag (k + 1) i (b0 :: b1 :: rest) out
                startLen st = GroupResult.err out2 e2 := hstep
            refine ⟨fun o e h => ?_, fun o h => ?_, fun r o st2 h => ?_⟩
            · rw [hres] at h
              rw [← (GroupResult.err.inj h).1, hremlen]
              omega
            · rw [hres] at h
              exact GroupResult.noConfusion h
            · rw [hres] at h
              exact GroupResult.noConfusion h
          | none =>
            have hsplit2 :
                (update_adaptive_state (out2.length - startLen) st).split ≤ 12 :=
              Nat.le_trans update_split_le hsplit
            have hmask2 :
                (update_adaptive_state (out2.length - startLen) st).mask =
                  2 ^ (update_adaptive_state (out2.length - startLen) st).split
                    - 1 := update_mask hmask
            by_cases hrnil : rest = []
            · have hres : tag_group_loop tag (k + 1) i (b0 :: b1 :: rest) out
                  startLen st = GroupResult.done out2 := by
                rw [hstep]
                show (if rest = [] then _ else _) = _
                rw [if_pos hrnil]
              refine ⟨fun o e h => ?_, fun o h => ?_, fun r o st2 h => ?_⟩
              · rw [hres] at h
                exact GroupResult.noConfusion h
              · rw [hres] at h
                rw [← GroupResult.done.inj h, hremlen]
                omega
              · rw [hres] at h
                exact GroupResult.noConfusion h
            · have hres : tag_group_loop tag (k + 1) i (b0 :: b1 :: rest) out
                  startLen st = tag_group_loop tag k (i + 1) rest out2 startLen
                    (update_adaptive_state (out2.length - startLen) st) := by
                rw [hstep]
                show (if rest = [] then _ else _) = _
                rw [if_neg hrnil]
              obtain ⟨ihe, ihd, ihn⟩ := ih tag (i + 1) rest out2 startLen
                (update_adaptive_state (out2.length - startLen) st) hsplit2
                hmask2
              refine ⟨fun o e h => ?_, fun o h => ?_, fun r o st2 h => ?_⟩
              · rw [hres] at h
                have h1 := ihe o e h
                rw [hremlen]
                omega
              · rw [hres] at h
                have h1 := ihd o h
                rw [hremlen]
                omega
              · rw [hres] at h
                obtain ⟨h1, h2, h3⟩ := ihn r o st2 h
                rw [hremlen]
                exact ⟨by omega, h2, h3⟩
    · cases rem with
      | nil =>
        have hres : tag_group_loop tag (k + 1) i [] out startLen st =
            GroupResult.done out := by rw [tgl_step, if_neg hbit]
        refine ⟨fun o e h => ?_, fun o h => ?_, fun r o st2 h => ?_⟩
        · rw [hres] at h
          exact GroupResult.noConfusion h
        · rw [hres] at h
          rw [← GroupResult.done.inj h]
          exact Nat.le_add_right _ _
        · rw [hres] at h
          exact GroupResult.noConfusion h
      | cons b rest =>
        have houtb : (out ++ [b]).length = out.length + 1 := by simp
        have hremlen : (b :: rest).length = rest.length + 1 := by simp
        have hsplit2 :
            (update_adaptive_state ((out ++ [b]).length - startLen) st).split ≤
              12 := Nat.le_trans update_split_le hsplit
        have hmask2 :
            (update_adaptive_state ((out ++ [b]).length - startLen) st).mask =
              2 ^ (update_adaptive_state ((out ++ [b]).length - startLen)
                st).split - 1 := update_mask hmask
        by_cases hrnil : rest = []
        · have hres : tag_group_loop tag (k + 1) i (b :: rest) out startLen st =
              GroupResult.done (out ++ [b]) := by
            rw [tgl_step, if_neg hbit]
            show (if rest = [] then _ else _) = _
            rw [if_pos hrnil]
          refine ⟨fun o e h => ?_, fun o h => ?_, fun r o st2 h => ?_⟩
          · rw [hres] at h
            exact GroupResult.noConfusion h
          · rw [hres] at h
            rw [← GroupResult.done.inj h, houtb, hremlen]
            omega
          · rw [hres] at h
            exact GroupResult.noConfusion h
        · have hres : tag_group_loop tag (k + 1) i (b :: rest) out startLen st =
              tag_group_loop tag k (i + 1) rest (out ++ [b]) startLen
                (update_adaptive_state ((out ++ [b]).length - startLen) st) := by
            rw [tgl_step, if_neg hbit]
            show (if rest = [] then _ else _) = _
            rw [if_neg hrnil]
          obtain ⟨ihe, ihd, ihn⟩ := ih tag (i + 1) rest (out ++ [b]) startLen
            (update_adaptive_state ((out ++ [b]).length - startLen) st) hsplit2
            hmask2
          refine ⟨fun o e h => ?_, fun o h => ?_, fun r o st2 h => ?_⟩
          · rw [hres] at h
            have h1 := ihe o e h
            rw [houtb] at h1
            rw [hremlen]
            omega
          · rw [hres] at h
            have h1 := ihd o h
            rw [houtb] at h1
            rw [hremlen]
            omega
          · rw [hres] at h
            obtain ⟨h1, h2, h3⟩ := ihn r o st2 h
            rw [houtb] at h1
            rw [hremlen]
            exact ⟨by omega, h2, h3⟩

/-- Output bound for the block loop: at most 4098 bytes appended per body
byte. -/
theorem bl_bound : ∀ (fuel : Nat) (rem out : List Nat) (startLen : Nat)
    (st : AdaptiveState), st.split ≤ 12 → st.mask = 2 ^ st.split - 1 →
    (block_loop fuel rem out startLen st).1.length ≤
      out.length + 4098 * rem.length := by
  intro fuel
  induction fuel with
  | zero =>
    intro rem out startLen st _ _
    show out.length ≤ _
    exact Nat.le_add_right _ _
  | succ fuel ih =>
    intro rem out startLen st hsplit hmask
    cases rem with
    | nil =>
      show out.length ≤ _
      exact Nat.le_add_right _ _
    | cons tagB rest0 =>
      rw [bl_cons]
      have hremlen : (tagB :: rest0).length = rest0.length + 1 := by simp
      by_cases hfast : tagB = 0 ∧ 8 ≤ rest0.length
      · rw [if_pos hfast]
        have hsplit2 : (update_adaptive_state
            ((out ++ rest0.take 8).length - startLen) st).split ≤ 12 :=
          Nat.le_trans update_split_le hsplit
        have hmask2 : (update_adaptive_state
            ((out ++ rest0.take 8).length - startLen) st).mask =
            2 ^ (update_adaptive_state
              ((out ++ rest0.take 8).length - startLen) st).split - 1 :=
          update_mask hmask
        have h1 := ih (rest0.drop 8) (out ++ rest0.take 8) startLen
          (update_adaptive_state ((out ++ rest0.take 8).length - startLen) st)
          hsplit2 hmask2
        have hlen1 : (out ++ rest0.take 8).length =
            out.length + min 8 rest0.length := by
          rw [List.length_append, List.length_take]
        have hlen2 : (rest0.drop 8).length = rest0.length - 8 := by
          rw [List.length_drop]
        rw [hremlen]
        have h8 : 8 ≤ rest0.length := hfast.2
        omega
      · rw [if_neg hfast]
        obtain ⟨tge, tgd, tgn⟩ := tgl_bound 8 tagB 0 rest0 out startLen st
          hsplit hmask
        rcases htg : tag_group_loop tagB 8 0 rest0 out startLen st with
          ⟨out2, e2⟩ | out2 | ⟨rem2, out2, st2⟩
        · show out2.length ≤ _
          have h1 := tge out2 e2 htg
          rw [hremlen]
          omega
        · show out2.length ≤ _
          have h1 := tgd out2 htg
          rw [hremlen]
          omega
        · obtain ⟨h1, h2, h3⟩ := tgn rem2 out2 st2 htg
          show (block_loop fuel rem2 out2 startLen st2).1.length ≤ _
          have h4 := ih rem2 out2 startLen st2 h2 h3
          rw [hremlen]
          omega

/-- Output bound for the top-level decompress loop: at most 4098 bytes
appended per input byte. -/
theorem dl_bound : ∀ (fuel : Nat) (rem out : List Nat),
    (decompress_loop fuel rem out).1.length ≤
      out.length + 4098 * rem.length := by
  intro fuel
  induction fuel with
  | zero =>
    intro rem out
    show out.length ≤ _
    exact Nat.le_add_right _ _
  | succ fuel ih =>
    intro rem out
    cases rem with
    | nil =>
      show out.length ≤ _
      exact Nat.le_add_right _ _
    | cons b0 rest1 =>
      cases rest1 with
      | nil =>
        by_cases hb : b0 = 0
        · show (if b0 = 0 then ((out, none) :
              List Nat × Option DecompressionError) else
            (out, some DecompressionError.unexpectedEof)).1.length ≤ _
          rw [if_pos hb]
          exact Nat.le_add_right _ _
        · show (if b0 = 0 then ((out, none) :
              List Nat × Option DecompressionError) else
            (out, some DecompressionError.unexpectedEof)).1.length ≤ _
          rw [if_neg hb]
          exact Nat.le_add_right _ _
      | cons b1 rest =>
        rw [dl_cons]
        by_cases h0 : b0 + 256 * b1 = 0
        · rw [if_pos h0]
          exact Nat.le_add_right _ _
        · rw [if_neg h0]
          by_cases hsz : rest.length < Nat.land (b0 + 256 * b1) 0x0FFF + 1
          · rw [if_pos hsz]
            exact Nat.le_add_right _ _
          · rw [if_neg hsz]
            have hszle : Nat.land (b0 + 256 * b1) 0x0FFF + 1 ≤ rest.length := by
              omega
            rcases hstep : (if Nat.land (b0 + 256 * b1) 0x8000 ≠ 0 then
                decompress_compressed_block
                  (rest.take (Nat.land (b0 + 256 * b1) 0x0FFF + 1)) out
              else
                (out ++ rest.take (Nat.land (b0 + 256 * b1) 0x0FFF + 1), none))
              with ⟨o, e⟩
            have hob : o.length ≤
                out.length + 4098 * (Nat.land (b0 + 256 * b1) 0x0FFF + 1) := by
              by_cases hc : Nat.land (b0 + 256 * b1) 0x8000 ≠ 0
              · rw [if_pos hc] at hstep
                have h1 := bl_bound
                  ((rest.take (Nat.land (b0 + 256 * b1) 0x0FFF + 1)).length + 1)
                  (rest.take (Nat.land (b0 + 256 * b1) 0x0FFF + 1)) out
                  out.length initAdaptive (by decide) (by decide)
                rw [show decompress_compressed_block
                    (rest.take (Nat.land (b0 + 256 * b1) 0x0FFF + 1)) out =
                  block_loop
                    ((rest.take
                      (Nat.land (b0 + 256 * b1) 0x0FFF + 1)).length + 1)
                    (rest.take (Nat.land (b0 + 256 * b1) 0x0FFF + 1)) out
                    out.length initAdaptive from rfl] at hstep
                rw [hstep] at h1
                have h2 : o.length ≤ out.length +
                    4098 * (rest.take
                      (Nat.land (b0 + 256 * b1) 0x0FFF + 1)).length := h1
                rw [List.length_take] at h2
                omega
              · rw [if_neg hc] at hstep
                have h2 : out ++
                    rest.take (Nat.land (b0 + 256 * b1) 0x0FFF + 1) = o :=
                  (Prod.mk.inj hstep).1
                rw [← h2, List.length_append, List.length_take]
                omega
            cases e with
            | some e =>
              show o.length ≤ _
              simp only [List.length_cons]
              omega
            | none =>
              show (decompress_loop fuel
                  (rest.drop (Nat.land (b0 + 256 * b1) 0x0FFF + 1)) o).1.length
                ≤ _
              have h1 := ih (rest.drop (Nat.land (b0 + 256 * b1) 0x0FFF + 1)) o
              rw [List.length_drop] at h1
              simp only [List.length_cons]
              omega

/-- C2 is refuted in its per-chunk output clause: a 6-byte stream holding one
4-byte compressed chunk decodes successfully to 4099 bytes, exceeding 4096
bytes for a single chunk (one literal plus a maximal 4098-byte run). -/
theorem C2_counterexample :
    (decompress [0x03, 0xB0, 0x02, 0x41, 0xFF, 0x0F] []).2 = none ∧
    4096 < (decompress [0x03, 0xB0, 0x02, 0x41, 0xFF, 0x0F] []).1.length := by
  have hst : update_adaptive_state (([] ++ [0x41] : List Nat).length - 0)
      initAdaptive = initAdaptive := update_adaptive_state_of_le (by decide)
  have htg1 : tag_group_loop 0x02 8 0 [0x41, 0xFF, 0x0F] [] 0 initAdaptive =
      tag_group_loop 0x02 7 (0 + 1) [0xFF, 0x0F] ([] ++ [0x41]) 0
        (update_adaptive_state (([] ++ [0x41] : List Nat).length - 0)
          initAdaptive) := rfl
  have ham : apply_match ([] ++ [0x41])
      (Nat.land (0xFF + 256 * 0x0F) initAdaptive.mask + 3)
      ((0xFF + 256 * 0x0F) >>> initAdaptive.split + 1) =
      (([] ++ [0x41] ++
        List.replicate (Nat.land (0xFF + 256 * 0x0F) initAdaptive.mask + 3)
          (([] ++ [0x41] : List Nat).getD
            (([] ++ [0x41] : List Nat).length - 1) 0)), none) := by
    unfold apply_match
    rw [if_neg (by decide), if_pos (by decide)]
  have hmid : tag_group_loop 0x02 7 (0 + 1) [0xFF, 0x0F] ([] ++ [0x41]) 0
      initAdaptive =
      (match apply_match ([] ++ [0x41])
          (Nat.land (0xFF + 256 * 0x0F) initAdaptive.mask + 3)
          ((0xFF + 256 * 0x0F) >>> initAdaptive.split + 1) with
      | (out2, some e) => GroupResult.err out2 e
      | (out2, none) =>
        if ([] : List Nat) = [] then GroupResult.done out2
        else tag_group_loop 0x02 6 (0 + 1 + 1) [] out2 0
          (update_adaptive_state (out2.length - 0) initAdaptive)) := rfl
  have htg2 : tag_group_loop 0x02 7 (0 + 1) [0xFF, 0x0F] ([] ++ [0x41]) 0
      initAdaptive = GroupResult.done ([] ++ [0x41] ++
        List.replicate (Nat.land (0xFF + 256 * 0x0F) initAdaptive.mask + 3)
          (([] ++ [0x41] : List Nat).getD
            (([] ++ [0x41] : List Nat).length - 1) 0)) := by
    rw [hmid, ham]
    rfl
  have htg : tag_group_loop 0x02 8 0 [0x41, 0xFF, 0x0F] [] 0 initAdaptive =
      GroupResult.done ([] ++ [0x41] ++
        List.replicate (Nat.land (0xFF + 256 * 0x0F) initAdaptive.mask + 3)
          (([] ++ [0x41] : List Nat).getD
            (([] ++ [0x41] : List Nat).length - 1) 0)) := by
    rw [htg1, hst, htg2]
  have hblk : block_loop (4 + 1) [0x02, 0x41, 0xFF, 0x0F] [] 0 initAdaptive =
      (([] ++ [0x41] ++
        List.replicate (Nat.land (0xFF + 256 * 0x0F) initAdaptive.mask + 3)
          (([] ++ [0x41] : List Nat).getD
            (([] ++ [0x41] : List Nat).length - 1) 0)), none) := by
    rw [bl_cons, if_neg (by decide), htg]
  have hmain : decompress [0x03, 0xB0, 0x02, 0x41, 0xFF, 0x0F] [] =
      (([] ++ [0x41] ++
        List.replicate (Nat.land (0xFF + 256 * 0x0F) initAdaptive.mask + 3)
          (([] ++ [0x41] : List Nat).getD
            (([] ++ [0x41] : List Nat).length - 1) 0)), none) := by
    rw [decompress_cons_step 0x03 0xB0 [0x02, 0x41, 0xFF, 0x0F] [] (by decide),
      if_neg (by decide), if_pos (by decide),
      show ([0x02, 0x41, 0xFF, 0x0F] : List Nat).take
        (Nat.land (0x03 + 256 * 0xB0) 0x0FFF + 1) = [0x02, 0x41, 0xFF, 0x0F]
        from by decide,
      show decompress_compressed_block [0x02, 0x41, 0xFF, 0x0F] [] =
        block_loop (4 + 1) [0x02, 0x41, 0xFF, 0x0F] [] 0 initAdaptive
        from rfl,
      hblk]
    rfl
  have hlen : (([] ++ [0x41] ++
        List.replicate (Nat.land (0xFF + 256 * 0x0F) initAdaptive.mask + 3)
          (([] ++ [0x41] : List Nat).getD
            (([] ++ [0x41] : List Nat).length - 1) 0)) : List Nat).length = 4099 := by
    rw [List.length_append, List.length_replicate]
    decide
  refine ⟨?_, ?_⟩
  · rw [hmain]
  · rw [hmain]
    show (4096 : Nat) < (([] ++ [0x41] ++
        List.replicate (Nat.land (0xFF + 256 * 0x0F) initAdaptive.mask + 3)
          (([] ++ [0x41] : List Nat).getD
            (([] ++ [0x41] : List Nat).length - 1) 0)) : List Nat).length
    rw [hlen]
    decide

/-- C2 (amended): `decompress` is total — it returns `Ok` or one of the
enumerated error kinds — and its output is bounded by the caller's bytes plus
4098 bytes per input byte (a single chunk may decode to more than 4096
bytes, up to 4098 per two-byte tuple). -/
theorem C2_total_bounded (input out : List Nat) :
    ((decompress input out).2 = none ∨
      ∃ e, (decompress input out).2 = some e) ∧
    (decompress input out).1.length ≤ out.length + 4098 * input.length := by
  refine ⟨?_, dl_bound (input.length + 1) input out⟩
  cases h : (decompress input out).2 with
  | none => exact Or.inl rfl
  | some e => exact Or.inr ⟨e, rfl⟩

end Lznt1
